import Mathlib

/-!
# Verification of the terminal video player's rendering core

This file gives a shallow embedding, in Lean 4, of the core data structures and
algorithms of the gstreamer-terminal-video-player repository:

* `PodMatrix` — the resizable 2D cell array (`src/terminal_sink/resize.rs`);
* the single-slot latest-wins video pipe (`src/terminal_sink/video_pipe.rs`);
* the ANSI frame renderer `RenderedFrame::render` with its diff path and its
  byte-level escape-sequence emission (`src/terminal_sink/diff.rs`);
* the keyboard seek logic (`src/input_handler.rs`) and the environment-flag
  parsing (`src/main.rs` and `src/terminal_sink/mod.rs`).

Byte streams are modelled as `List Nat` (byte values), machine integers as
`Nat` with explicit bounds where the code relies on them.  A small byte-level
VT terminal emulator is defined to state the refinement property between the
overwrite repaint and the differential repaint.
-/

/-- An RGB8 pixel (`Rgb<u8>` / `[u8; 3]` in the source).  Channels are byte
values `0..=255`; no arithmetic in the source ever overflows a channel. -/
structure Rgb where
  r : Nat
  g : Nat
  b : Nat
deriving DecidableEq

def zeroRgb : Rgb := ⟨0, 0, 0⟩

/-- One terminal cell: two stacked half-pixels (`Cell` in `diff.rs`). -/
structure Cell where
  rgb_top : Rgb
  rgb_bottom : Rgb
deriving DecidableEq

def zeroCell : Cell := ⟨zeroRgb, zeroRgb⟩

/-- `PodMatrix<T>` from `src/terminal_sink/resize.rs`: a size plus a flat
row-major cell vector.  The source's `u16` size components are modelled as
`Nat`; `size.1` is the width, `size.2` the height. -/
structure PodMatrix (T : Type) where
  size : Nat × Nat
  cells : List T
deriving DecidableEq

instance : Zero Cell := ⟨zeroCell⟩

namespace PodMatrix

/-- `PodMatrix::new()` — empty, size 0×0. -/
def new (T : Type) : PodMatrix T := ⟨(0, 0), []⟩

/-- `PodMatrix::resize` (`resize.rs` lines 21–43).  The new length is
`size.0 * size.1` (the source's `checked_mul` cannot fail for `u16` inputs on a
64-bit `usize`).  If the new length equals the current one, the cells are
untouched; if smaller, the vector is truncated; if larger, the vector keeps its
prefix and the newly reserved tail is zero-filled (`ptr::write_bytes .. 0`). -/
def resize [Zero T] (m : PodMatrix T) (sz : Nat × Nat) : PodMatrix T :=
  let newLength := sz.1 * sz.2
  let currentLen := m.cells.length
  let cells :=
    if newLength = currentLen then m.cells
    else if newLength < currentLen then m.cells.take newLength
    else m.cells ++ List.replicate (newLength - currentLen) 0
  { size := sz, cells := cells }

/-- `PodMatrix::width`. -/
def width (m : PodMatrix T) : Nat := m.size.1

/-- `PodMatrix::height`. -/
def height (m : PodMatrix T) : Nat := m.size.2

end PodMatrix

/-! ## VideoPipe (`src/terminal_sink/video_pipe.rs`)

The shared slot protected by the mutex is a `RenderState`; each operation is
modelled as a pure transition on that state.  Samples are an abstract type `S`
(in the source, `gst::Sample`; cloning a sample yields the same value). -/

/-- `RenderState` from `video_pipe.rs`: `None`, `HasSample { sample, pulled }`,
or the absorbing `Closed`. -/
inductive RenderState (S : Type) where
  | none
  | hasSample (sample : S) (pulled : Bool)
  | closed
deriving DecidableEq

/-- Result of an operation on the pipe state: the state after the operation,
whether the operation returned `Ok`, and whether it notified the condvar. -/
structure PipeOpResult (S : Type) where
  state : RenderState S
  ok : Bool
  notified : Bool
deriving DecidableEq

/-- `SampleProducer::push_sample` (`video_pipe.rs` lines 30–52): if the slot
holds an unpulled sample, overwrite it in place without notifying; if closed,
return `Err`; otherwise (empty slot or already-pulled sample) store the sample
unpulled and notify one waiter. -/
def pushSample (st : RenderState S) (s : S) : PipeOpResult S :=
  match st with
  | .hasSample _ false => ⟨.hasSample s false, true, false⟩
  | .closed => ⟨.closed, false, false⟩
  | _ => ⟨.hasSample s false, true, true⟩

/-- `SampleProducer::close` (`video_pipe.rs` lines 54–58): unconditionally set
the state to `Closed` and notify one waiter. -/
def closeProducer (_st : RenderState S) : PipeOpResult S :=
  ⟨.closed, true, true⟩

/-- `Drop for RenderingContextPipe` (`video_pipe.rs` lines 17–24): dropping
either pipe handle replaces the state with `Closed` and notifies. -/
def dropPipe (_st : RenderState S) : RenderState S := .closed

/-- Outcome of `SampleConsumer::pull_sample`: `wouldBlock` models the condvar
wait (state `None` or an already-pulled sample), `ok` returns a clone of the
stored sample after marking it pulled, `err` is the `Closed` case. -/
inductive PullOutcome (S : Type) where
  | wouldBlock
  | ok (state : RenderState S) (sample : S)
  | err (state : RenderState S)
deriving DecidableEq

/-- `SampleConsumer::pull_sample` (`video_pipe.rs` lines 64–83), one iteration
of its wait loop. -/
def pullSample (st : RenderState S) : PullOutcome S :=
  match st with
  | .none => .wouldBlock
  | .hasSample _ true => .wouldBlock
  | .hasSample s false => .ok (.hasSample s true) s
  | .closed => .err .closed

/-- `SampleReloader::reload_sample` (`video_pipe.rs` lines 93–111), in the case
where the weak upgrade succeeds: on `None` succeed without doing anything, on
`HasSample` clear the `pulled` flag and notify, on `Closed` return `Err`. -/
def reloadSample (st : RenderState S) : PipeOpResult S :=
  match st with
  | .none => ⟨.none, true, false⟩
  | .hasSample s _ => ⟨.hasSample s false, true, true⟩
  | .closed => ⟨.closed, false, false⟩

/-- Fold a sequence of pushes over the slot state, keeping the state reached. -/
def pushAll (st : RenderState S) (l : List S) : RenderState S :=
  l.foldl (fun st s => (pushSample st s).state) st

/-- `true` iff every push in the sequence returned `Ok`. -/
def pushAllOk (st : RenderState S) (l : List S) : Bool :=
  (l.foldl (fun (acc : Bool × RenderState S) s =>
    let r := pushSample acc.2 s
    (acc.1 && r.ok, r.state)) (true, st)).1

/-! ## Images and color quantization (`resize.rs`, `diff.rs`) -/

/-- `ImageRef` from `resize.rs`: dimensions plus a flat row-major RGB8 pixel
buffer.  `from_buffer` guarantees `pixels.length = width * height`. -/
structure ImageRef where
  width : Nat
  height : Nat
  pixels : List Rgb
deriving DecidableEq

/-- `ImageRef::get_pixel_unchecked`: `pixels[j * width + i]`. -/
def ImageRef.getPixel (img : ImageRef) (i j : Nat) : Rgb :=
  img.pixels.getD (j * img.width + i) zeroRgb

/-- The 5-bit color quantization from `render_inner`'s `get_pixel`:
each channel is masked with `0xF8` (`u8::MAX << (8 - 5)`). -/
def quantize (c : Rgb) : Rgb := ⟨c.r &&& 248, c.g &&& 248, c.b &&& 248⟩

/-- `get_pixel` in `render_inner` (`diff.rs` lines 151–162): the quantized
pixel. -/
def ImageRef.getPixelQ (img : ImageRef) (i j : Nat) : Rgb :=
  quantize (img.getPixel i j)

/-! ## Byte emission (`diff.rs`) -/

/-- Decimal digit bytes, most significant first, with a structural fuel bound
(any `fuel > n` gives the exact digits). -/
def decDigitsAux (fuel n : Nat) : List Nat :=
  match fuel with
  | 0 => []
  | fuel + 1 => if n < 10 then [48 + n] else decDigitsAux fuel (n / 10) ++ [48 + n % 10]

/-- Decimal digit bytes of `n`, most significant first, no leading zeros.
This is the format produced by the `itoa` crate used for cursor moves, and the
reference format for `write_u8_ascii`. -/
def decDigits (n : Nat) : List Nat := decDigitsAux (n + 1) n

/-- The numeric value of a most-significant-first list of ASCII digit bytes. -/
def digitsVal (l : List Nat) : Nat := l.foldl (fun a d => a * 10 + (d - 48)) 0

/-- One entry of `write_u8_ascii`'s 256-entry lookup table (`diff.rs` lines
40–85): three digits for `100..`, two for `10..`, one otherwise, each digit
stored as `b'0' + d`. -/
def lutEntry (i : Nat) : List Nat :=
  if 100 ≤ i then
    let first := i / 100
    let rest := i % 100
    [48 + first, 48 + rest / 10, 48 + rest % 10]
  else if 10 ≤ i then [48 + i / 10, 48 + i % 10]
  else [48 + i]

/-- `write_u8_ascii` (`diff.rs` lines 15–95): look the byte up in the table
(`n % 256` records that the source input is a `u8`). -/
def writeU8Ascii (n : Nat) : List Nat := lutEntry (n % 256)

/-- `Cell::draw` (`diff.rs` lines 98–131): truecolor foreground SGR, truecolor
background SGR, then `U+2580` as UTF-8 `E2 96 80`. -/
def Cell.draw (c : Cell) : List Nat :=
  [27, 91, 51, 56, 59, 50, 59]
    ++ writeU8Ascii c.rgb_top.r ++ [59] ++ writeU8Ascii c.rgb_top.g ++ [59]
    ++ writeU8Ascii c.rgb_top.b ++ [109]
    ++ [27, 91, 52, 56, 59, 50, 59]
    ++ writeU8Ascii c.rgb_bottom.r ++ [59] ++ writeU8Ascii c.rgb_bottom.g ++ [59]
    ++ writeU8Ascii c.rgb_bottom.b ++ [109]
    ++ [226, 150, 128]

/-- An `ESC [ y ; x H` cursor-goto for the (already 1-based) pair `(x, y)`. -/
def gotoBytes (x y : Nat) : List Nat :=
  [27, 91] ++ decDigits y ++ [59] ++ decDigits x ++ [72]

/-- `write_move` in `render_inner` (`diff.rs` lines 183–195): the zero-based
position is `(offset.0 + i, offset.1 + j)` (a `u16` addition, hence the
`% 65536`), and the 1-based coordinates use `saturating_add(1)`. -/
def writeMove (offW offH i j : Nat) : List Nat :=
  gotoBytes (min ((offW + i) % 65536 + 1) 65535) (min ((offH + j) % 65536 + 1) 65535)

/-- `termion::clear::All`, the bytes `ESC [ 2 J`. -/
def clearAllBytes : List Nat := [27, 91, 50, 74]

/-- The trailing `ESC [ 0 m` appended by `RenderedFrame::render`. -/
def resetBytes : List Nat := [27, 91, 48, 109]

/-! ## `RenderedFrame::render` (`diff.rs` lines 133–280) -/

/-- `PodMatrix::get_mut_unchecked` as a read: row-major index
`j * width + i`. -/
def PodMatrix.getCell [Zero T] (m : PodMatrix T) (i j : Nat) : T :=
  m.cells.getD (j * m.size.1 + i) 0

/-- Writing through `PodMatrix::get_mut_unchecked`: set the row-major index
`j * width + i`. -/
def PodMatrix.setCell (m : PodMatrix T) (i j : Nat) (c : T) : PodMatrix T :=
  { m with cells := m.cells.set (j * m.size.1 + i) c }

/-- `match j & 1 { 0 => pixel.rgb_top = rgb, _ => pixel.rgb_bottom = rgb }`. -/
def setTopBottom (px : Cell) (j : Nat) (rgb : Rgb) : Cell :=
  if j % 2 = 0 then { px with rgb_top := rgb } else { px with rgb_bottom := rgb }

/-- The overwrite path's frame update (`diff.rs` lines 197–207): for every
source row `j` and column `i`, store the quantized pixel in the top (even `j`)
or bottom (odd `j`) half of cell `(i, j / 2)`. -/
def overwriteUpdate (frame : PodMatrix Cell) (img : ImageRef) : PodMatrix Cell :=
  (List.range img.height).foldl (fun fr j =>
    (List.range img.width).foldl (fun fr i =>
      fr.setCell i (j / 2) (setTopBottom (fr.getCell i (j / 2)) j (img.getPixelQ i j))) fr) frame

/-- The odd-height fix-up (`diff.rs` lines 209–215): zero the bottom half of
every cell from flat index `width * (height / 2)` on. -/
def zeroBottomTail (frame : PodMatrix Cell) (start : Nat) : PodMatrix Cell :=
  { frame with
    cells := frame.cells.take start
      ++ (frame.cells.drop start).map (fun c => { c with rgb_bottom := zeroRgb }) }

/-- The overwrite path's emission (`diff.rs` lines 217–222): per cell row a
cursor move to column 0 of that row, then every cell drawn left to right. -/
def overwriteEmit (frame : PodMatrix Cell) (offW offH termW termH : Nat) : List Nat :=
  (List.range termH).flatMap (fun j =>
    writeMove offW offH 0 j
      ++ (List.range termW).flatMap (fun i => (frame.getCell i j).draw))

/-- One column step of the diff path's full-row loop (`diff.rs` lines
227–246), carrying `(frame, last_changed, emitted bytes)`. -/
def diffRowStep (img : ImageRef) (offW offH j : Nat)
    (st : PodMatrix Cell × Bool × List Nat) (i : Nat) :
    PodMatrix Cell × Bool × List Nat :=
  let fr := st.1
  let lastChanged := st.2.1
  let acc := st.2.2
  let rgbT := img.getPixelQ i (j * 2)
  let rgbB := img.getPixelQ i (j * 2 + 1)
  let px := fr.getCell i j
  if px.rgb_top ≠ rgbT ∨ px.rgb_bottom ≠ rgbB then
    let acc2 := if lastChanged then acc else acc ++ writeMove offW offH i j
    (fr.setCell i j ⟨rgbT, rgbB⟩, true, acc2 ++ Cell.draw ⟨rgbT, rgbB⟩)
  else (fr, false, acc)

/-- The diff path's loop over one full cell row `j`. -/
def diffRow (fr : PodMatrix Cell) (img : ImageRef) (offW offH j : Nat) :
    PodMatrix Cell × List Nat :=
  let res := (List.range img.width).foldl (diffRowStep img offW offH j) (fr, false, [])
  (res.1, res.2.2)

/-- One column step of the diff path's trailing odd row (`diff.rs` lines
248–266): only the top halves are compared, and the drawn cell keeps the
stored bottom half. -/
def diffLastRowStep (img : ImageRef) (offW offH j : Nat)
    (st : PodMatrix Cell × Bool × List Nat) (i : Nat) :
    PodMatrix Cell × Bool × List Nat :=
  let fr := st.1
  let lastChanged := st.2.1
  let acc := st.2.2
  let rgbT := img.getPixelQ i (j * 2)
  let px := fr.getCell i j
  if px.rgb_top ≠ rgbT then
    let acc2 := if lastChanged then acc else acc ++ writeMove offW offH i j
    let px2 := { px with rgb_top := rgbT }
    (fr.setCell i j px2, true, acc2 ++ px2.draw)
  else (fr, false, acc)

/-- The diff path's trailing odd row loop, at cell row `height / 2`. -/
def diffLastRow (fr : PodMatrix Cell) (img : ImageRef) (offW offH : Nat) :
    PodMatrix Cell × List Nat :=
  let j := img.height / 2
  let res := (List.range img.width).foldl (diffLastRowStep img offW offH j) (fr, false, [])
  (res.1, res.2.2)

/-- The target cell grid: `(width, ceil(height / 2))`. -/
def termSizeOf (img : ImageRef) : Nat × Nat := (img.width, (img.height + 1) / 2)

/-- `RenderedFrame::render_inner` (`diff.rs` lines 144–267) after the `u16`
conversions: force `overwrite` when the stored size differs (resizing the
frame), then either clear-and-repaint every cell or emit the diff.  Returns
the updated frame and the emitted bytes. -/
def renderCore (frame : PodMatrix Cell) (img : ImageRef) (overwrite : Bool)
    (off : Nat × Nat) : PodMatrix Cell × List Nat :=
  let terminalSize := termSizeOf img
  let ow := overwrite || decide (terminalSize ≠ frame.size)
  let frame := if terminalSize ≠ frame.size then frame.resize terminalSize else frame
  if ow then
    let frame := overwriteUpdate frame img
    let frame := if img.height % 2 ≠ 0 then
        zeroBottomTail frame (img.width * (img.height / 2)) else frame
    (frame, clearAllBytes ++ overwriteEmit frame off.1 off.2 terminalSize.1 terminalSize.2)
  else
    let rows := (List.range (img.height / 2)).foldl (fun st j =>
        let r := diffRow st.1 img off.1 off.2 j
        (r.1, st.2 ++ r.2)) (frame, ([] : List Nat))
    if img.height % 2 ≠ 0 then
      let r := diffLastRow rows.1 img off.1 off.2
      (r.1, rows.2 ++ r.2)
    else rows

/-- `u16::try_from` on a `Nat`. -/
def u16TryFrom (n : Nat) : Option Nat := if n ≤ 65535 then some n else none

/-- `RenderedFrame::render` (`diff.rs` lines 269–279): the two `.unwrap()`ed
`u16` conversions at the top of `render_inner` (`diff.rs` lines 164–168) abort
on failure, modelled as `none`; otherwise run `render_inner` and append
`ESC [ 0 m`. -/
def render (frame : PodMatrix Cell) (img : ImageRef) (overwrite : Bool)
    (off : Nat × Nat) : Option (PodMatrix Cell × List Nat) :=
  match u16TryFrom img.width, u16TryFrom ((img.height + 1) / 2) with
  | some _, some _ =>
    let r := renderCore frame img overwrite off
    some (r.1, r.2 ++ resetBytes)
  | _, _ => none

/-- The bytes `render` appends (empty in the panic case). -/
def renderBytes (frame : PodMatrix Cell) (img : ImageRef) (overwrite : Bool)
    (off : Nat × Nat) : List Nat :=
  ((render frame img overwrite off).map Prod.snd).getD []

/-- A freshly-cleared frame of cell-grid size `w × th`: every cell zero. -/
def freshFrame (w th : Nat) : PodMatrix Cell :=
  ⟨(w, th), List.replicate (w * th) zeroCell⟩

/-- The cell the renderer ends up storing for cell `(i, j)`: quantized top
pixel from source row `2j`, quantized bottom pixel from row `2j + 1`, or a
zero bottom when that row does not exist. -/
def expectedCell (img : ImageRef) (i j : Nat) : Cell :=
  ⟨img.getPixelQ i (2 * j),
   if 2 * j + 1 < img.height then img.getPixelQ i (2 * j + 1) else zeroRgb⟩

/-! ## A byte-level VT terminal emulator

Used to state claim C4: final terminal state of a replayed byte stream.  The
screen records, per character position, the top/bottom colors shown there (a
drawn `U+2580` shows the foreground on top and the background below; cleared
positions show black/black). -/

/-- Escape-sequence parser state. -/
inductive PState where
  | ground
  | sawEsc
  | csi (params : List Nat) (cur : Nat)
  | utf2 (b1 : Nat)
  | utf3 (b1 b2 : Nat)
deriving DecidableEq

/-- Emulator state: parser state, zero-based cursor, current SGR foreground
and background, and the screen contents. -/
structure VTState where
  p : PState
  cursor : Nat × Nat
  fg : Rgb
  bg : Rgb
  screen : Nat × Nat → Cell

/-- Dispatch a complete CSI sequence. -/
def applyCsi (st : VTState) (params : List Nat) (final : Nat) : VTState :=
  if final = 72 then
    match params with
    | [y, x] => { st with cursor := (x - 1, y - 1) }
    | _ => st
  else if final = 109 then
    match params with
    | [38, 2, r, g, b] => { st with fg := ⟨r, g, b⟩ }
    | [48, 2, r, g, b] => { st with bg := ⟨r, g, b⟩ }
    | [0] => { st with fg := zeroRgb, bg := zeroRgb }
    | _ => st
  else if final = 74 then
    match params with
    | [2] => { st with screen := fun _ => zeroCell }
    | _ => st
  else st

/-- Draw the half-block glyph: paint `(fg, bg)` at the cursor and advance. -/
def drawGlyph (st : VTState) : VTState :=
  { st with
    screen := fun pos => if pos = st.cursor then ⟨st.fg, st.bg⟩ else st.screen pos,
    cursor := (st.cursor.1 + 1, st.cursor.2) }

/-- One byte of emulator input. -/
def vtStep (st : VTState) (b : Nat) : VTState :=
  match st.p with
  | .ground =>
    if b = 27 then { st with p := .sawEsc }
    else if b = 226 then { st with p := .utf2 b }
    else st
  | .sawEsc => if b = 91 then { st with p := .csi [] 0 } else { st with p := .ground }
  | .csi ps cur =>
    if 48 ≤ b ∧ b ≤ 57 then { st with p := .csi ps (cur * 10 + (b - 48)) }
    else if b = 59 then { st with p := .csi (ps ++ [cur]) 0 }
    else applyCsi { st with p := .ground } (ps ++ [cur]) b
  | .utf2 b1 => { st with p := .utf3 b1 b }
  | .utf3 b1 b2 =>
    if b1 = 226 ∧ b2 = 150 ∧ b = 128 then drawGlyph { st with p := .ground }
    else { st with p := .ground }

/-- Run the emulator over a byte stream. -/
def vtRun (st : VTState) (bytes : List Nat) : VTState := bytes.foldl vtStep st

/-- The initial emulator state: a cleared screen. -/
def initVT : VTState := ⟨.ground, (0, 0), zeroRgb, zeroRgb, fun _ => zeroCell⟩

/-- All channels are byte values. -/
def rgbBound (c : Rgb) : Prop := c.r < 256 ∧ c.g < 256 ∧ c.b < 256

/-- Both halves of a cell are in byte range. -/
def cellBound (c : Cell) : Prop := rgbBound c.rgb_top ∧ rgbBound c.rgb_bottom

/-! ## Input handling (`src/input_handler.rs`) -/

/-- The seek flags passed to `seek_simple`. -/
inductive SeekFlag where
  | flush
  | keyUnit
  | accurate
deriving DecidableEq

/-- `gst::ClockTime::from_seconds`: nanoseconds. -/
def secondsToNs (s : Nat) : Nat := s * 1000000000

/-- `ClockTime::saturating_add` (a `u64` nanosecond count). -/
def u64SatAdd (a b : Nat) : Nat := min (a + b) 18446744073709551615

/-- `seek_relative` (`input_handler.rs` lines 13–34): no-op when the position
query fails; otherwise add/subtract `|offset|` seconds saturating, clamp a
forward seek to the duration when known, and issue `seek_simple` with
`FLUSH | KEY_UNIT`. -/
def seekRelative (position duration : Option Nat) (offset : Int) :
    Option (List SeekFlag × Nat) :=
  match position with
  | Option.none => Option.none
  | some current =>
    let seekOffset := secondsToNs offset.natAbs
    let newPosition :=
      if 0 ≤ offset then
        let res := u64SatAdd current seekOffset
        match duration with
        | some mx => min res mx
        | Option.none => res
      else current - seekOffset
    some ([SeekFlag.flush, SeekFlag.keyUnit], newPosition)

/-- `termion::event::Key`, restricted to the constructors the handler
distinguishes. -/
inductive Key where
  | right
  | left
  | up
  | down
  | char (c : Char)
  | esc
  | ctrl (c : Char)
  | other
deriving DecidableEq

/-- `gst::State`, restricted to the values the handler distinguishes. -/
inductive GstState where
  | nullState
  | ready
  | paused
  | playing
deriving DecidableEq

/-- What one iteration of `play_controls` (`input_handler.rs` lines 36–76)
does for a key: whether it posts end-of-stream on the bus, which relative seek
it issues, and the local playing/paused state passed to `set_state`. -/
structure ControlStep where
  postsEos : Bool
  seekOffset : Option Int
  nextLocal : GstState
deriving DecidableEq

/-- The `match event` in `play_controls`.  `Ctrl('c')` is not one of the
listed patterns and falls into the catch-all `_ => {}`.  The `Space` toggle's
other arms are `unreachable!()` in the source (the local state is only ever
`Playing` or `Paused`), modelled as the identity. -/
def playControlsStep (localState : GstState) (k : Key) : ControlStep :=
  match k with
  | .right => ⟨false, some 5, localState⟩
  | .left => ⟨false, some (-5), localState⟩
  | .char c =>
    if c = ' ' then
      ⟨false, Option.none,
        match localState with
        | .playing => .paused
        | .paused => .playing
        | s => s⟩
    else if c = 'q' ∨ c = 'Q' then ⟨true, Option.none, localState⟩
    else ⟨false, Option.none, localState⟩
  | .up => ⟨false, Option.none, .playing⟩
  | .down => ⟨false, Option.none, .paused⟩
  | .esc => ⟨true, Option.none, localState⟩
  | .ctrl _ => ⟨false, Option.none, localState⟩
  | .other => ⟨false, Option.none, localState⟩

/-- The `map_while` guard of `play_controls`' event stream: iteration
continues only while both weak references upgrade and the pipeline is not in
the `Null` state. -/
def inputLoopContinues (pipelineAlive busAlive : Bool) (pipelineState : GstState) : Bool :=
  pipelineAlive && busAlive && decide (pipelineState ≠ .nullState)

/-- The observable outcome of one run of `exit_handler`: whether it took the
early-return branch that installs the two weak-ref-notify callbacks, whether
it reached `exit.wait()`, and whether it posted end-of-stream on the bus. -/
structure ExitHandlerResult where
  installsCallbacks : Bool
  reachesWait : Bool
  postsEos : Bool
deriving DecidableEq

/-- `exit_handler` (`input_handler.rs` lines 78–114).  The registered SIGINT
handler only completes the `Once` (`exit.call_once(|| ())`); it posts nothing
itself.  If both weak references upgrade at entry (the ordinary case), the
function registers a weak-ref-notify callback on each object — each callback
again only completes the `Once` once the second object is destroyed — and
returns at once, so no end-of-stream is ever posted from this function.  Only
in the fallback case, where at least one upgrade already failed, does it block
on `exit.wait()`; in that branch no callbacks were registered, so only a
delivered SIGINT releases the wait, after which end-of-stream is posted iff
the bus weak reference still upgrades. -/
def exitHandler (busAliveAtEntry pipelineAliveAtEntry : Bool)
    (sigintDelivered busAliveAfterWait : Bool) : ExitHandlerResult :=
  if busAliveAtEntry && pipelineAliveAtEntry then
    ⟨true, false, false⟩
  else if sigintDelivered then
    ⟨false, true, busAliveAfterWait⟩
  else
    ⟨false, true, false⟩

/-! ## Environment flags (`src/main.rs` lines 18–24, `src/terminal_sink/mod.rs`
lines 146–152) -/

/-- `u8::make_ascii_lowercase` on one byte. -/
def toLowerByte (b : Nat) : Nat := if 65 ≤ b ∧ b ≤ 90 then b + 32 else b

/-- `u8::is_ascii_whitespace`: space, tab, newline, form feed, carriage
return. -/
def isAsciiWhitespaceByte (b : Nat) : Bool :=
  b == 32 || b == 9 || b == 10 || b == 12 || b == 13

/-- `<[u8]>::trim_ascii`. -/
def trimAsciiBytes (l : List Nat) : List Nat :=
  ((l.dropWhile isAsciiWhitespaceByte).reverse.dropWhile isAsciiWhitespaceByte).reverse

/-- `flag` in `src/main.rs` (used for `NO_AUDIO_OUTPUT`): lowercase the bytes,
trim ASCII whitespace, and accept exactly `y`, `yes` or the empty string; an
unset variable yields the default. -/
def flagMain (value : Option (List Nat)) (dflt : Bool) : Bool :=
  match value with
  | Option.none => dflt
  | some s =>
    let lowered := s.map toLowerByte
    let trimmed := trimAsciiBytes lowered
    trimmed == [121] || trimmed == [121, 101, 115] || trimmed == []

/-- `flag` in `src/terminal_sink/mod.rs` (used for `NO_DISPLAY_OUTPUT` and
`USE_STDOUT`): lowercase the bytes and accept exactly `y` or `yes` — no
trimming, and the empty string is not accepted. -/
def flagSink (value : Option (List Nat)) (dflt : Bool) : Bool :=
  match value with
  | Option.none => dflt
  | some s =>
    let lowered := s.map toLowerByte
    lowered == [121] || lowered == [121, 101, 115]

theorem podmatrix_resize_length [Zero T] (m : PodMatrix T) (sz : Nat × Nat) :
    (m.resize sz).cells.length = sz.1 * sz.2 ∧ (m.resize sz).size = sz := by
  unfold PodMatrix.resize
  constructor
  · dsimp only
    split
    · omega
    · split
      · rw [List.length_take]
        omega
      · rw [List.length_append, List.length_replicate]
        omega
  · rfl

theorem podmatrix_resize_tail_zero [Zero T] (m : PodMatrix T) (sz : Nat × Nat)
    (k : Nat) (hk : m.cells.length ≤ k) :
    (m.resize sz).cells.getD k 0 = 0 := by
  unfold PodMatrix.resize
  dsimp only
  split
  · next heq =>
    rcases Nat.lt_or_ge k m.cells.length with h | h
    · omega
    · exact List.getD_eq_default _ _ h
  · split
    · next h =>
      rcases Nat.lt_or_ge k (m.cells.take (sz.1 * sz.2)).length with hlt | hge
      · rw [List.length_take] at hlt
        omega
      · exact List.getD_eq_default _ _ hge
    · next h1 h2 =>
      rcases Nat.lt_or_ge k (m.cells.length + (sz.1 * sz.2 - m.cells.length)) with hlt | hge
      · rw [List.getD_eq_getElem?_getD, List.getElem?_append_right hk]
        rw [List.getElem?_replicate]
        have : k - m.cells.length < sz.1 * sz.2 - m.cells.length := by omega
        simp [this]
      · apply List.getD_eq_default
        rw [List.length_append, List.length_replicate]
        omega

theorem podmatrix_resize_zero_preserved [Zero T] (m : PodMatrix T) (sz : Nat × Nat)
    (hz : ∀ c ∈ m.cells, c = 0) : ∀ c ∈ (m.resize sz).cells, c = 0 := by
  unfold PodMatrix.resize
  dsimp only
  intro c hc
  split at hc
  · exact hz c hc
  · split at hc
    · exact hz c (List.mem_of_mem_take hc)
    · rcases List.mem_append.mp hc with h | h
      · exact hz c h
      · exact (List.eq_of_mem_replicate h)

theorem pushSample_not_closed (st : RenderState S) (s : S) (h : st ≠ .closed) :
    pushSample st s = ⟨.hasSample s false, true, (match st with
      | .hasSample _ false => false | _ => true)⟩ := by
  cases st with
  | none => rfl
  | hasSample x p => cases p <;> rfl
  | closed => exact absurd rfl h

theorem pushAll_last (S : Type) (l : List S) :
    ∀ (st : RenderState S), st ≠ .closed → ∀ (h2 : l ≠ []),
      pushAll st l = .hasSample (l.getLast h2) false := by
  induction l with
  | nil => intro st _ h2; exact absurd rfl h2
  | cons a rest ih =>
    intro st h1 h2
    cases rest with
    | nil =>
      simp only [pushAll, List.foldl, pushSample_not_closed st a h1]
      rfl
    | cons b rest2 =>
      have hstep : (pushSample st a).state = .hasSample a false := by
        rw [pushSample_not_closed st a h1]
      have hne : (pushSample st a).state ≠ .closed := by
        rw [hstep]; intro hc; cases hc
      have hres := ih (pushSample st a).state hne (by simp)
      simp only [pushAll, List.foldl] at hres ⊢
      rw [hres, List.getLast_cons (by simp : (b :: rest2) ≠ [])]

theorem pushAllOk_aux (S : Type) (l : List S) :
    ∀ (st : RenderState S) (b : Bool), st ≠ .closed →
      (l.foldl (fun (acc : Bool × RenderState S) s =>
        let r := pushSample acc.2 s
        (acc.1 && r.ok, r.state)) (b, st)).1 = b := by
  induction l with
  | nil => intro st b _; rfl
  | cons a rest ih =>
    intro st b h
    simp only [List.foldl]
    rw [pushSample_not_closed st a h]
    have : (b && true) = b := by simp
    simp only [this]
    exact ih _ b (by intro hc; cases hc)

/-- Claim C2: after any nonempty sequence of pushes (with no intervening pull)
starting from a non-closed state, every push succeeded, the slot holds exactly
the last pushed sample in state `HasSample{pulled:false}`, a single subsequent
`pull_sample` returns a clone of that last sample leaving the state
`HasSample{pulled:true}`, and a push that overwrites an unpulled sample does
not notify the condition variable. -/
theorem videopipe_latest_wins (S : Type) (st : RenderState S) (l : List S)
    (h1 : st ≠ .closed) (h2 : l ≠ []) :
    pushAllOk st l = true
    ∧ pushAll st l = .hasSample (l.getLast h2) false
    ∧ pullSample (pushAll st l) = .ok (.hasSample (l.getLast h2) true) (l.getLast h2)
    ∧ (∀ (x s : S), pushSample (.hasSample x false) s = ⟨.hasSample s false, true, false⟩) := by
  refine ⟨pushAllOk_aux S l st true h1, pushAll_last S l st h1 h2, ?_, fun x s => rfl⟩
  rw [pushAll_last S l st h1 h2]
  rfl

/-- Witness for C2 at a concrete overrun: three pushes into an empty slot. -/
theorem videopipe_latest_wins_witness :
    pushAllOk (RenderState.none : RenderState Nat) [1, 2, 3] = true
    ∧ pushAll (RenderState.none : RenderState Nat) [1, 2, 3] = .hasSample 3 false
    ∧ pullSample (pushAll (RenderState.none : RenderState Nat) [1, 2, 3])
        = .ok (.hasSample 3 true) 3
    ∧ pushSample (RenderState.hasSample 1 false) 2
        = ⟨.hasSample 2 false, true, false⟩ := by
  have h := videopipe_latest_wins Nat RenderState.none [1, 2, 3]
    (by intro hc; cases hc) (by simp)
  exact ⟨h.1, h.2.1, h.2.2.1, h.2.2.2 1 2⟩

/-- Claim C3: `Closed` is absorbing.  Every operation on the pipe — push, one
iteration of pull's wait loop, reload, close, and dropping a pipe handle —
leaves a `Closed` state closed, and push, pull and reload all return an error
there. -/
theorem videopipe_closed_absorbing (S : Type) (s : S) :
    pushSample (RenderState.closed) s = ⟨.closed, false, false⟩
    ∧ pullSample (RenderState.closed : RenderState S) = .err .closed
    ∧ reloadSample (RenderState.closed : RenderState S) = ⟨.closed, false, false⟩
    ∧ closeProducer (RenderState.closed : RenderState S) = ⟨.closed, true, true⟩
    ∧ dropPipe (RenderState.closed : RenderState S) = .closed :=
  ⟨rfl, rfl, rfl, rfl, rfl⟩

/-- Counterexample for C1: growing a `PodMatrix` that held a nonzero cell keeps
that cell's value, so not every cell is zero after `resize`. -/
theorem podmatrix_resize_counterexample :
    ¬ (∀ c ∈ ((⟨(1, 1), [5]⟩ : PodMatrix Nat).resize (2, 1)).cells, c = 0) := by
  decide

/-- Claim C1 (amended): after `resize(s)` the length is `s.0 * s.1` and the
size is recorded, cells at indices at or beyond the old length are zero, and a
matrix whose cells were all zero stays all zero — but surviving cells keep
their previous (possibly nonzero) values. -/
theorem podmatrix_resize_correct [Zero T] (m : PodMatrix T) (sz : Nat × Nat) :
    (m.resize sz).cells.length = sz.1 * sz.2
    ∧ (m.resize sz).size = sz
    ∧ (∀ k, m.cells.length ≤ k → (m.resize sz).cells.getD k 0 = 0)
    ∧ ((∀ c ∈ m.cells, c = 0) → ∀ c ∈ (m.resize sz).cells, c = 0) :=
  ⟨(podmatrix_resize_length m sz).1, (podmatrix_resize_length m sz).2,
    fun k hk => podmatrix_resize_tail_zero m sz k hk,
    podmatrix_resize_zero_preserved m sz⟩

/-- Witness for C1's amended statement on a concrete grow. -/
theorem podmatrix_resize_correct_witness :
    ((⟨(1, 1), [0]⟩ : PodMatrix Nat).resize (2, 2)).cells.length = 4
    ∧ ((⟨(1, 1), [0]⟩ : PodMatrix Nat).resize (2, 2)).size = (2, 2)
    ∧ ((⟨(1, 1), [0]⟩ : PodMatrix Nat).resize (2, 2)).cells.getD 3 0 = 0 := by
  have h := podmatrix_resize_correct (⟨(1, 1), [0]⟩ : PodMatrix Nat) (2, 2)
  exact ⟨h.1, h.2.1, h.2.2.1 3 (by decide)⟩

/-! ## Decimal formatting lemmas -/

theorem decDigitsAux_congr : ∀ f1 n f2 : Nat, n < f1 → n < f2 →
    decDigitsAux f1 n = decDigitsAux f2 n := by
  intro f1
  induction f1 with
  | zero => intro n f2 h _; exact absurd h (Nat.not_lt_zero n)
  | succ f ih =>
    intro n f2 h1 h2
    cases f2 with
    | zero => exact absurd h2 (Nat.not_lt_zero n)
    | succ f2 =>
      by_cases h10 : n < 10
      · simp [decDigitsAux, h10]
      · simp only [decDigitsAux, if_neg h10]
        have hd : n / 10 < n := Nat.div_lt_self (by omega) (by omega)
        congr 1
        exact ih (n / 10) f2 (by omega) (by omega)

theorem decDigits_rec (n : Nat) :
    decDigits n = if n < 10 then [48 + n] else decDigits (n / 10) ++ [48 + n % 10] := by
  by_cases h10 : n < 10
  · simp [decDigits, decDigitsAux, h10]
  · rw [if_neg h10]
    have hd : n / 10 < n := Nat.div_lt_self (by omega) (by omega)
    show decDigitsAux (n + 1) n = decDigitsAux (n / 10 + 1) (n / 10) ++ [48 + n % 10]
    rw [show decDigitsAux (n + 1) n = decDigitsAux n (n / 10) ++ [48 + n % 10] from by
      simp [decDigitsAux, h10]]
    congr 1
    exact decDigitsAux_congr n (n / 10) (n / 10 + 1) (by omega) (by omega)

theorem decDigits_ne_nil (n : Nat) : decDigits n ≠ [] := by
  rw [decDigits_rec]
  split
  · simp
  · simp

theorem decDigits_bounds (n : Nat) : ∀ d ∈ decDigits n, 48 ≤ d ∧ d ≤ 57 := by
  induction n using Nat.strong_induction_on with
  | _ n ih =>
    rw [decDigits_rec]
    by_cases h10 : n < 10
    · simp only [if_pos h10, List.mem_singleton]
      intro d hd
      omega
    · simp only [if_neg h10, List.mem_append, List.mem_singleton]
      intro d hd
      rcases hd with hd | hd
      · exact ih (n / 10) (Nat.div_lt_self (by omega) (by omega)) d hd
      · have : n % 10 < 10 := Nat.mod_lt n (by omega)
        omega

theorem digitsVal_decDigits_aux (n : Nat) :
    ∀ a : Nat, (decDigits n).foldl (fun a d => a * 10 + (d - 48)) a
      = a * 10 ^ (decDigits n).length + n := by
  induction n using Nat.strong_induction_on with
  | _ n ih =>
    intro a
    rw [decDigits_rec]
    by_cases h10 : n < 10
    · simp [if_pos h10, List.foldl]
    · simp only [if_neg h10, List.foldl_append, List.foldl, List.length_append,
        List.length_singleton]
      rw [ih (n / 10) (Nat.div_lt_self (by omega) (by omega)) a]
      have hmod : n % 10 + 48 - 48 = n % 10 := by omega
      have : 48 + n % 10 - 48 = n % 10 := by omega
      rw [this, pow_succ]
      have := Nat.div_add_mod n 10
      ring_nf
      omega

theorem digitsVal_decDigits (n : Nat) : digitsVal (decDigits n) = n := by
  unfold digitsVal
  rw [digitsVal_decDigits_aux n 0]
  simp

theorem decDigits_no_leading_zero (n : Nat) (h : n ≠ 0) : (decDigits n).getD 0 0 ≠ 48 := by
  induction n using Nat.strong_induction_on with
  | _ n ih =>
    rw [decDigits_rec]
    by_cases h10 : n < 10
    · simp only [if_pos h10, List.getD]
      simp
      omega
    · simp only [if_neg h10]
      rcases hne : decDigits (n / 10) with _ | ⟨d, rest⟩
      · exact absurd hne (decDigits_ne_nil (n / 10))
      · have := ih (n / 10) (Nat.div_lt_self (by omega) (by omega)) (by omega)
        rw [hne] at this
        simpa using this

set_option maxRecDepth 4000 in
theorem writeU8Ascii_eq_decDigits : ∀ n < 256, writeU8Ascii n = decDigits n := by
  have h : (List.range 256).all (fun m => writeU8Ascii m == decDigits m) = true := by decide
  intro n hn
  have := List.all_eq_true.mp h n (List.mem_range.mpr hn)
  exact beq_iff_eq.mp (by simpa using this)

/-- Claim C6: `Cell::draw` emits exactly the truecolor foreground SGR, the
truecolor background SGR, and `U+2580` as `E2 96 80`, with every channel
written as its decimal representation without leading zeros; the 256-entry
lookup table of `write_u8_ascii` is correct for every input byte (`decDigits`
carries the meaning of decimal: its digits are ASCII digits, evaluate back to
the number, and never start with a leading zero). -/
theorem cell_draw_correct (c : Cell)
    (h : c.rgb_top.r < 256 ∧ c.rgb_top.g < 256 ∧ c.rgb_top.b < 256
      ∧ c.rgb_bottom.r < 256 ∧ c.rgb_bottom.g < 256 ∧ c.rgb_bottom.b < 256) :
    c.draw = [27, 91, 51, 56, 59, 50, 59]
        ++ decDigits c.rgb_top.r ++ [59] ++ decDigits c.rgb_top.g ++ [59]
        ++ decDigits c.rgb_top.b ++ [109]
        ++ [27, 91, 52, 56, 59, 50, 59]
        ++ decDigits c.rgb_bottom.r ++ [59] ++ decDigits c.rgb_bottom.g ++ [59]
        ++ decDigits c.rgb_bottom.b ++ [109]
        ++ [226, 150, 128]
    ∧ (∀ n < 256, writeU8Ascii n = decDigits n)
    ∧ (∀ n : Nat, digitsVal (decDigits n) = n
        ∧ (∀ d ∈ decDigits n, 48 ≤ d ∧ d ≤ 57)
        ∧ (n ≠ 0 → (decDigits n).getD 0 0 ≠ 48)) := by
  obtain ⟨h1, h2, h3, h4, h5, h6⟩ := h
  refine ⟨?_, writeU8Ascii_eq_decDigits,
    fun n => ⟨digitsVal_decDigits n, decDigits_bounds n, decDigits_no_leading_zero n⟩⟩
  unfold Cell.draw
  rw [writeU8Ascii_eq_decDigits _ h1, writeU8Ascii_eq_decDigits _ h2,
    writeU8Ascii_eq_decDigits _ h3, writeU8Ascii_eq_decDigits _ h4,
    writeU8Ascii_eq_decDigits _ h5, writeU8Ascii_eq_decDigits _ h6]

/-- Witness for C6 at a concrete cell. -/
theorem cell_draw_correct_witness :
    Cell.draw ⟨⟨0, 128, 255⟩, ⟨7, 10, 99⟩⟩
      = [27, 91, 51, 56, 59, 50, 59]
        ++ decDigits 0 ++ [59] ++ decDigits 128 ++ [59] ++ decDigits 255 ++ [109]
        ++ [27, 91, 52, 56, 59, 50, 59]
        ++ decDigits 7 ++ [59] ++ decDigits 10 ++ [59] ++ decDigits 99 ++ [109]
        ++ [226, 150, 128] :=
  (cell_draw_correct ⟨⟨0, 128, 255⟩, ⟨7, 10, 99⟩⟩ (by decide)).1

/-- Claim C10: `render`'s implicit precondition — the `u16` conversions of
the width and of `ceil(height / 2)` succeed exactly when both fit in a `u16`;
outside those bounds the call panics (modelled `none`) without emitting
anything. -/
theorem render_u16_precondition (frame : PodMatrix Cell) (img : ImageRef)
    (ow : Bool) (off : Nat × Nat) :
    (img.width ≤ 65535 → (img.height + 1) / 2 ≤ 65535 →
      (render frame img ow off).isSome = true)
    ∧ (65535 < img.width ∨ 65535 < (img.height + 1) / 2 →
      render frame img ow off = Option.none) := by
  unfold render u16TryFrom
  constructor
  · intro hw hh
    rw [if_pos hw, if_pos hh]
    rfl
  · intro h
    rcases h with h | h
    · rw [if_neg (by omega : ¬ img.width ≤ 65535)]
    · rw [if_neg (by omega : ¬ (img.height + 1) / 2 ≤ 65535)]
      split <;> simp_all

/-- Witness for C10: a 1×1 image renders; a 70000-wide image panics. -/
theorem render_u16_precondition_witness :
    (render (PodMatrix.new Cell) ⟨1, 1, [⟨1, 2, 3⟩]⟩ true (0, 0)).isSome = true
    ∧ render (PodMatrix.new Cell) ⟨70000, 2, []⟩ true (0, 0) = Option.none :=
  ⟨(render_u16_precondition (PodMatrix.new Cell) ⟨1, 1, [⟨1, 2, 3⟩]⟩ true (0, 0)).1
      (by decide) (by decide),
    (render_u16_precondition (PodMatrix.new Cell) ⟨70000, 2, []⟩ true (0, 0)).2
      (Or.inl (by decide))⟩

/-- Counterexample for C9: the empty string is truthy for the `flag` helper in
`main.rs` (used by `NO_AUDIO_OUTPUT`) but falsy for the distinct `flag` helper
in `terminal_sink/mod.rs` (used by `NO_DISPLAY_OUTPUT` and `USE_STDOUT`), so
"truthy exactly when `y`, `yes`, or the empty string" fails for the latter
two variables. -/
theorem flag_empty_counterexample :
    flagMain (some []) false = true ∧ flagSink (some []) false = false := by
  decide

/-- Claim C9 (amended): an unset variable yields the default for both
helpers.  `NO_AUDIO_OUTPUT` (the `main.rs` helper) is truthy exactly when the
lowercased, ASCII-trimmed value is `y`, `yes` or empty; `NO_DISPLAY_OUTPUT`
and `USE_STDOUT` (the `terminal_sink/mod.rs` helper) are truthy exactly when
the lowercased, untrimmed value is `y` or `yes` — the empty string is not
truthy for them.  Sink-truthy values are also main-truthy. -/
theorem env_flags_truthy (s : List Nat) (dflt : Bool) :
    flagMain Option.none dflt = dflt
    ∧ flagSink Option.none dflt = dflt
    ∧ (flagMain (some s) dflt = true ↔
        (trimAsciiBytes (s.map toLowerByte) = [121]
          ∨ trimAsciiBytes (s.map toLowerByte) = [121, 101, 115]
          ∨ trimAsciiBytes (s.map toLowerByte) = []))
    ∧ (flagSink (some s) dflt = true ↔
        (s.map toLowerByte = [121] ∨ s.map toLowerByte = [121, 101, 115]))
    ∧ (flagSink (some s) dflt = true → flagMain (some s) dflt = true) := by
  refine ⟨rfl, rfl, ?_, ?_, ?_⟩
  · simp only [flagMain, Bool.or_eq_true, beq_iff_eq]
    tauto
  · simp [flagSink]
  · intro h
    have h2 : s.map toLowerByte = [121] ∨ s.map toLowerByte = [121, 101, 115] := by
      simpa [flagSink] using h
    simp only [flagMain]
    rcases h2 with h2 | h2 <;> rw [h2] <;> decide

/-- Counterexample for C7: the seek issued by `seek_relative` uses the
`FLUSH | KEY_UNIT` flags, not the accurate flag. -/
theorem seek_flags_counterexample :
    seekRelative (some 0) (some 10000000000) 5
        = some ([SeekFlag.flush, SeekFlag.keyUnit], 5000000000)
    ∧ SeekFlag.accurate ∉ [SeekFlag.flush, SeekFlag.keyUnit] := by
  constructor
  · rfl
  · decide

/-- Claim C7 (amended): with a known position, right-arrow seeks to
`position + 5 s` (saturating) clamped to the duration when known, and
left-arrow to `position − 5 s` saturating at 0 — with the `FLUSH | KEY_UNIT`
flags (not accurate).  In particular right-arrow at `position ≥ duration − 5 s`
seeks exactly to the duration and left-arrow at `position ≤ 5 s` to exactly 0;
with no position the seek is skipped. -/
theorem seek_relative_correct (pos dur : Nat) (hdur : dur ≤ 18446744073709551615) :
    seekRelative (some pos) (some dur) 5
        = some ([SeekFlag.flush, SeekFlag.keyUnit], min (u64SatAdd pos (secondsToNs 5)) dur)
    ∧ seekRelative (some pos) Option.none 5
        = some ([SeekFlag.flush, SeekFlag.keyUnit], u64SatAdd pos (secondsToNs 5))
    ∧ (dur - secondsToNs 5 ≤ pos →
        seekRelative (some pos) (some dur) 5 = some ([SeekFlag.flush, SeekFlag.keyUnit], dur))
    ∧ seekRelative (some pos) (some dur) (-5)
        = some ([SeekFlag.flush, SeekFlag.keyUnit], pos - secondsToNs 5)
    ∧ (pos ≤ secondsToNs 5 →
        seekRelative (some pos) (some dur) (-5) = some ([SeekFlag.flush, SeekFlag.keyUnit], 0))
    ∧ seekRelative Option.none (some dur) 5 = Option.none := by
  have h5 : ((5 : Int).natAbs : Nat) = 5 := rfl
  have hm5 : ((-5 : Int).natAbs : Nat) = 5 := rfl
  have hpos : (0 : Int) ≤ 5 := by norm_num
  have hneg : ¬ (0 : Int) ≤ -5 := by norm_num
  refine ⟨?_, ?_, ?_, ?_, ?_, rfl⟩
  · simp [seekRelative, hpos, h5]
  · simp [seekRelative, hpos, h5]
  · intro hge
    simp only [seekRelative, if_pos hpos, h5, secondsToNs, u64SatAdd] at hge ⊢
    norm_num at hge ⊢
    omega
  · simp [seekRelative, hneg, hm5]
  · intro hle
    simp only [seekRelative, if_neg hneg, hm5, secondsToNs] at hle ⊢
    norm_num at hle ⊢
    omega

/-- Witness for C7's amended statement: right-arrow near the end clamps to
the duration; left-arrow near the start clamps to 0. -/
theorem seek_relative_correct_witness :
    seekRelative (some 7000000000) (some 9000000000) 5
        = some ([SeekFlag.flush, SeekFlag.keyUnit], 9000000000)
    ∧ seekRelative (some 3000000000) (some 9000000000) (-5)
        = some ([SeekFlag.flush, SeekFlag.keyUnit], 0) :=
  ⟨(seek_relative_correct 7000000000 9000000000 (by norm_num)).2.2.1
      (by norm_num [secondsToNs]),
    (seek_relative_correct 3000000000 9000000000 (by norm_num)).2.2.2.2.1
      (by norm_num [secondsToNs])⟩

/-- Counterexample for C8: `Ctrl-C` is not one of the key patterns handled by
`play_controls` — it falls into the catch-all and posts nothing, so pressing
it in the input handler's key loop does not post end-of-stream. -/
theorem input_ctrlc_counterexample :
    playControlsStep GstState.playing (Key.ctrl 'c')
      = ⟨false, Option.none, GstState.playing⟩ := by
  rfl

/-- Claim C8 (amended): the keys `q`, `Q` and `Esc` post end-of-stream on the
bus; `Ctrl-C` as a key matches none of `play_controls`' patterns and posts
nothing; when both weak references upgrade as `exit_handler` starts (the
ordinary case) it installs the weak-ref-notify callbacks and returns at once,
so a delivered SIGINT posts no end-of-stream; only in the fallback case where
an upgrade already failed does `exit_handler` wait and then post end-of-stream
exactly when a SIGINT arrives and the bus is still alive; and the input
thread's loop continues only while both weak references upgrade and the
pipeline is not `Null` — so it stops after the pipeline is torn down, not at
the quit keystroke itself. -/
theorem input_quit_keys (st : GstState) :
    (playControlsStep st (Key.char 'q')).postsEos = true
    ∧ (playControlsStep st (Key.char 'Q')).postsEos = true
    ∧ (playControlsStep st Key.esc).postsEos = true
    ∧ playControlsStep st (Key.ctrl 'c') = ⟨false, Option.none, st⟩
    ∧ (∀ pa ba : Bool, ∀ ps : GstState,
        inputLoopContinues pa ba ps = false ↔
          (pa = false ∨ ba = false ∨ ps = GstState.nullState))
    ∧ (∀ sig ba2 : Bool, exitHandler true true sig ba2 = ⟨true, false, false⟩)
    ∧ (∀ ba pa sig ba2 : Bool, (ba && pa) = false →
        exitHandler ba pa sig ba2 = ⟨false, true, sig && ba2⟩) := by
  refine ⟨?_, ?_, rfl, rfl, ?_, fun sig ba2 => rfl, ?_⟩
  · simp [playControlsStep]
  · simp [playControlsStep]
  · intro pa ba ps
    cases pa <;> cases ba <;> cases ps <;> simp [inputLoopContinues]
  · intro ba pa sig ba2 h
    cases ba <;> cases pa <;> cases sig <;> cases ba2 <;> simp_all [exitHandler]

/-- Witness for C8: the fallback branch of `exit_handler` (pipeline already
unreachable at entry) waits and, once a SIGINT arrives with the bus still
alive, posts end-of-stream. -/
theorem input_quit_keys_witness :
    ((true : Bool) && false) = false
    ∧ exitHandler true false true true = ⟨false, true, true && true⟩ :=
  ⟨by decide, (input_quit_keys GstState.playing).2.2.2.2.2.2 true false true true (by decide)⟩

/-! ## C5: the diff of two identical frames is empty -/

theorem diffRowStep_nochange (img : ImageRef) (offW offH j i : Nat) (fr : PodMatrix Cell)
    (h1 : (fr.getCell i j).rgb_top = img.getPixelQ i (j * 2))
    (h2 : (fr.getCell i j).rgb_bottom = img.getPixelQ i (j * 2 + 1)) :
    diffRowStep img offW offH j (fr, false, []) i = (fr, false, []) := by
  unfold diffRowStep
  simp only
  rw [if_neg (by simp [h1, h2])]

theorem diffRow_nochange (fr : PodMatrix Cell) (img : ImageRef) (offW offH j : Nat)
    (h : ∀ i < img.width,
      (fr.getCell i j).rgb_top = img.getPixelQ i (j * 2)
      ∧ (fr.getCell i j).rgb_bottom = img.getPixelQ i (j * 2 + 1)) :
    diffRow fr img offW offH j = (fr, []) := by
  unfold diffRow
  suffices hs : ∀ n, n ≤ img.width →
      (List.range n).foldl (diffRowStep img offW offH j) (fr, false, []) = (fr, false, []) by
    rw [hs img.width le_rfl]
  intro n
  induction n with
  | zero => intro _; rfl
  | succ k ih =>
    intro hn
    rw [List.range_succ, List.foldl_append, ih (by omega)]
    simp only [List.foldl]
    exact diffRowStep_nochange img offW offH j k fr (h k (by omega)).1 (h k (by omega)).2

theorem diffLastRowStep_nochange (img : ImageRef) (offW offH j i : Nat) (fr : PodMatrix Cell)
    (h1 : (fr.getCell i j).rgb_top = img.getPixelQ i (j * 2)) :
    diffLastRowStep img offW offH j (fr, false, []) i = (fr, false, []) := by
  unfold diffLastRowStep
  simp only
  rw [if_neg (by simp [h1])]

theorem diffLastRow_nochange (fr : PodMatrix Cell) (img : ImageRef) (offW offH : Nat)
    (h : ∀ i < img.width,
      (fr.getCell i (img.height / 2)).rgb_top = img.getPixelQ i (img.height / 2 * 2)) :
    diffLastRow fr img offW offH = (fr, []) := by
  unfold diffLastRow
  dsimp only
  suffices hs : ∀ n, n ≤ img.width →
      (List.range n).foldl (diffLastRowStep img offW offH (img.height / 2)) (fr, false, [])
        = (fr, false, []) by
    rw [hs img.width le_rfl]
  intro n
  induction n with
  | zero => intro _; rfl
  | succ k ih =>
    intro hn
    rw [List.range_succ, List.foldl_append, ih (by omega)]
    simp only [List.foldl]
    exact diffLastRowStep_nochange img offW offH (img.height / 2) k fr (h k (by omega))

theorem renderCore_nochange (frame : PodMatrix Cell) (img : ImageRef) (offW offH : Nat)
    (hsize : frame.size = termSizeOf img)
    (hfull : ∀ j < img.height / 2, ∀ i < img.width,
      (frame.getCell i j).rgb_top = img.getPixelQ i (j * 2)
      ∧ (frame.getCell i j).rgb_bottom = img.getPixelQ i (j * 2 + 1))
    (hodd : img.height % 2 ≠ 0 → ∀ i < img.width,
      (frame.getCell i (img.height / 2)).rgb_top = img.getPixelQ i (img.height / 2 * 2)) :
    renderCore frame img false (offW, offH) = (frame, []) := by
  have hc : (termSizeOf img ≠ frame.size) = False := by simp [hsize]
  have hrows : ∀ n, n ≤ img.height / 2 →
      (List.range n).foldl (fun st j =>
        let r := diffRow st.1 img offW offH j
        (r.1, st.2 ++ r.2)) (frame, ([] : List Nat)) = (frame, []) := by
    intro n
    induction n with
    | zero => intro _; rfl
    | succ k ih =>
      intro hn
      rw [List.range_succ, List.foldl_append, ih (by omega)]
      simp only [List.foldl]
      rw [diffRow_nochange frame img offW offH k (hfull k (by omega))]
      rfl
  unfold renderCore
  simp only [hc, decide_False, Bool.or_false, Bool.false_or, if_false, ite_false,
    Bool.false_eq_true]
  by_cases hoddc : img.height % 2 ≠ 0
  · rw [hrows (img.height / 2) le_rfl]
    rw [if_pos hoddc]
    rw [diffLastRow_nochange frame img offW offH (hodd hoddc)]
    rfl
  · rw [hrows (img.height / 2) le_rfl]
    rw [if_neg hoddc]

/-- Claim C5: when the stored grid already matches the image after 5-bit
quantization (and the stored size equals the image's cell grid),
`render(img, overwrite=false, offset, out)` appends no cursor-goto and no SGR
color sequence — the output is exactly the trailing `ESC [ 0 m`, and the frame
is unchanged. -/
theorem render_identical_frame (frame : PodMatrix Cell) (img : ImageRef) (offW offH : Nat)
    (hw : img.width ≤ 65535) (hh : (img.height + 1) / 2 ≤ 65535)
    (hsize : frame.size = termSizeOf img)
    (hfull : ∀ j < img.height / 2, ∀ i < img.width,
      (frame.getCell i j).rgb_top = img.getPixelQ i (j * 2)
      ∧ (frame.getCell i j).rgb_bottom = img.getPixelQ i (j * 2 + 1))
    (hodd : img.height % 2 ≠ 0 → ∀ i < img.width,
      (frame.getCell i (img.height / 2)).rgb_top = img.getPixelQ i (img.height / 2 * 2)) :
    render frame img false (offW, offH) = some (frame, resetBytes) := by
  unfold render u16TryFrom
  rw [if_pos hw, if_pos hh]
  simp only
  rw [renderCore_nochange frame img offW offH hsize hfull hodd]
  rfl

/-- Witness for C5: a 2×4 solid-red image against its already-matching
2×2 cell frame emits exactly the reset bytes. -/
theorem render_identical_frame_witness :
    render ⟨(2, 2), List.replicate 4 ⟨⟨248, 0, 0⟩, ⟨248, 0, 0⟩⟩⟩
        ⟨2, 4, List.replicate 8 ⟨255, 0, 0⟩⟩ false (0, 0)
      = some (⟨(2, 2), List.replicate 4 ⟨⟨248, 0, 0⟩, ⟨248, 0, 0⟩⟩⟩, resetBytes) :=
  render_identical_frame ⟨(2, 2), List.replicate 4 ⟨⟨248, 0, 0⟩, ⟨248, 0, 0⟩⟩⟩
    ⟨2, 4, List.replicate 8 ⟨255, 0, 0⟩⟩ 0 0
    (by decide) (by decide) (by decide)
    (by decide)
    (by intro h; exact absurd rfl h)

/-! ## VT emulator: running the emitted primitives -/

theorem vtRun_append (st : VTState) (a b : List Nat) :
    vtRun st (a ++ b) = vtRun (vtRun st a) b :=
  List.foldl_append vtStep st a b

theorem quantize_bound (c : Rgb) : rgbBound (quantize c) := by
  unfold quantize rgbBound
  refine ⟨?_, ?_, ?_⟩ <;> exact Nat.lt_succ_of_le (le_trans Nat.and_le_right (by norm_num))

theorem vtStep_digit (d : Nat) (hd : 48 ≤ d ∧ d ≤ 57) (ps : List Nat) (cur : Nat)
    (cur2 : Nat × Nat) (fg0 bg0 : Rgb) (scr : Nat × Nat → Cell) :
    vtStep ⟨.csi ps cur, cur2, fg0, bg0, scr⟩ d
      = ⟨.csi ps (cur * 10 + (d - 48)), cur2, fg0, bg0, scr⟩ := by
  simp only [vtStep]
  rw [if_pos hd]

theorem vtRun_csi_digits (n : Nat) :
    ∀ (ps : List Nat) (cur : Nat) (cur2 : Nat × Nat) (fg0 bg0 : Rgb)
      (scr : Nat × Nat → Cell),
      vtRun ⟨.csi ps cur, cur2, fg0, bg0, scr⟩ (decDigits n)
        = ⟨.csi ps (cur * 10 ^ (decDigits n).length + n), cur2, fg0, bg0, scr⟩ := by
  induction n using Nat.strong_induction_on with
  | _ n ih =>
    intro ps cur cur2 fg0 bg0 scr
    rw [decDigits_rec]
    by_cases h10 : n < 10
    · simp only [if_pos h10, List.length_singleton]
      simp only [vtRun, List.foldl]
      rw [vtStep_digit (48 + n) (by omega) ps cur cur2 fg0 bg0 scr]
      congr 2
      omega
    · simp only [if_neg h10, List.length_append, List.length_singleton]
      rw [vtRun_append]
      rw [ih (n / 10) (Nat.div_lt_self (by omega) (by omega)) ps cur cur2 fg0 bg0 scr]
      simp only [vtRun, List.foldl]
      rw [vtStep_digit (48 + n % 10) (by omega) _ _ cur2 fg0 bg0 scr]
      congr 2
      have hpow : (10 : Nat) ^ ((decDigits (n / 10)).length + 1)
          = 10 ^ (decDigits (n / 10)).length * 10 := by ring
      rw [hpow]
      have := Nat.div_add_mod n 10
      have h48 : 48 + n % 10 - 48 = n % 10 := by omega
      rw [h48]
      ring_nf
      omega

theorem vtRun_goto (st : VTState) (x y : Nat) (hp : st.p = .ground) :
    vtRun st (gotoBytes x y) = ⟨.ground, (x - 1, y - 1), st.fg, st.bg, st.screen⟩ := by
  obtain ⟨p, cur2, fg0, bg0, scr⟩ := st
  simp only at hp
  subst hp
  unfold gotoBytes
  rw [vtRun_append, vtRun_append, vtRun_append, vtRun_append]
  rw [show vtRun ⟨.ground, cur2, fg0, bg0, scr⟩ [27, 91]
      = ⟨.csi [] 0, cur2, fg0, bg0, scr⟩ from rfl]
  rw [vtRun_csi_digits y [] 0 cur2 fg0 bg0 scr]
  simp only [Nat.zero_mul, Nat.zero_add]
  rw [show vtRun ⟨.csi [] y, cur2, fg0, bg0, scr⟩ [59]
      = ⟨.csi [y] 0, cur2, fg0, bg0, scr⟩ from rfl]
  rw [vtRun_csi_digits x [y] 0 cur2 fg0 bg0 scr]
  simp only [Nat.zero_mul, Nat.zero_add]
  rfl

theorem vtRun_sgr38Prefix (rest : List Nat) (cur2 : Nat × Nat) (fg0 bg0 : Rgb)
    (scr : Nat × Nat → Cell) :
    vtRun ⟨.ground, cur2, fg0, bg0, scr⟩ (27 :: 91 :: 51 :: 56 :: 59 :: 50 :: 59 :: rest)
      = vtRun ⟨.csi [38, 2] 0, cur2, fg0, bg0, scr⟩ rest := rfl

theorem vtRun_pushPrefix (rest : List Nat) (ps : List Nat) (cur : Nat) (cur2 : Nat × Nat)
    (fg0 bg0 : Rgb) (scr : Nat × Nat → Cell) :
    vtRun ⟨.csi ps cur, cur2, fg0, bg0, scr⟩ (59 :: rest)
      = vtRun ⟨.csi (ps ++ [cur]) 0, cur2, fg0, bg0, scr⟩ rest := rfl

theorem vtRun_fgFinalPrefix (rest : List Nat) (r g b : Nat) (cur2 : Nat × Nat)
    (fg0 bg0 : Rgb) (scr : Nat × Nat → Cell) :
    vtRun ⟨.csi [38, 2, r, g] b, cur2, fg0, bg0, scr⟩
        (109 :: 27 :: 91 :: 52 :: 56 :: 59 :: 50 :: 59 :: rest)
      = vtRun ⟨.csi [48, 2] 0, cur2, ⟨r, g, b⟩, bg0, scr⟩ rest := rfl

theorem vtRun_bgFinalTail (r g b : Nat) (cur2 : Nat × Nat) (fg0 bg0 : Rgb)
    (scr : Nat × Nat → Cell) :
    vtRun ⟨.csi [48, 2, r, g] b, cur2, fg0, bg0, scr⟩ [109, 226, 150, 128]
      = ⟨.ground, (cur2.1 + 1, cur2.2), fg0, ⟨r, g, b⟩,
          fun pos => if pos = cur2 then ⟨fg0, ⟨r, g, b⟩⟩ else scr pos⟩ := rfl

theorem vtRun_cellDraw (st : VTState) (c : Cell) (hp : st.p = .ground) (hb : cellBound c) :
    vtRun st c.draw
      = ⟨.ground, (st.cursor.1 + 1, st.cursor.2), c.rgb_top, c.rgb_bottom,
          fun pos => if pos = st.cursor then ⟨c.rgb_top, c.rgb_bottom⟩ else st.screen pos⟩ := by
  obtain ⟨p, cur2, fg0, bg0, scr⟩ := st
  simp only at hp
  subst hp
  unfold cellBound rgbBound at hb
  obtain ⟨⟨htr, htg, htb⟩, ⟨hbr, hbg, hbb⟩⟩ := hb
  unfold Cell.draw
  rw [writeU8Ascii_eq_decDigits _ htr, writeU8Ascii_eq_decDigits _ htg,
    writeU8Ascii_eq_decDigits _ htb, writeU8Ascii_eq_decDigits _ hbr,
    writeU8Ascii_eq_decDigits _ hbg, writeU8Ascii_eq_decDigits _ hbb]
  simp only [List.append_assoc, List.cons_append, List.nil_append]
  rw [vtRun_sgr38Prefix]
  rw [vtRun_append, vtRun_csi_digits]
  simp only [Nat.zero_mul, Nat.zero_add]
  rw [vtRun_pushPrefix]
  simp only [List.cons_append, List.nil_append]
  rw [vtRun_append, vtRun_csi_digits]
  simp only [Nat.zero_mul, Nat.zero_add]
  rw [vtRun_pushPrefix]
  simp only [List.cons_append, List.nil_append]
  rw [vtRun_append, vtRun_csi_digits]
  simp only [Nat.zero_mul, Nat.zero_add]
  rw [vtRun_fgFinalPrefix]
  rw [vtRun_append, vtRun_csi_digits]
  simp only [Nat.zero_mul, Nat.zero_add]
  rw [vtRun_pushPrefix]
  simp only [List.cons_append, List.nil_append]
  rw [vtRun_append, vtRun_csi_digits]
  simp only [Nat.zero_mul, Nat.zero_add]
  rw [vtRun_pushPrefix]
  simp only [List.cons_append, List.nil_append]
  rw [vtRun_append, vtRun_csi_digits]
  simp only [Nat.zero_mul, Nat.zero_add]
  exact vtRun_bgFinalTail c.rgb_bottom.r c.rgb_bottom.g c.rgb_bottom.b cur2 c.rgb_top bg0 scr

/-! ## Row-major index lemmas -/

theorem rowMajor_bound (w th i j : Nat) (hi : i < w) (hj : j < th) :
    j * w + i < w * th := by
  have h1 : j * w + i < (j + 1) * w := by
    rw [Nat.add_mul, Nat.one_mul]
    omega
  have h2 : (j + 1) * w ≤ th * w := Nat.mul_le_mul_right w (by omega)
  rw [Nat.mul_comm th w] at h2
  omega

theorem rowMajor_inj (w i i' j j' : Nat) (hi : i < w) (hi' : i' < w)
    (h : j * w + i = j' * w + i') : i = i' ∧ j = j' := by
  have hw : 0 < w := by omega
  rw [Nat.add_comm (j * w) i, Nat.add_comm (j' * w) i'] at h
  have e1 : (i + j * w) / w = j := by
    rw [Nat.add_mul_div_right i j hw, Nat.div_eq_of_lt hi, Nat.zero_add]
  have e2 : (i' + j' * w) / w = j' := by
    rw [Nat.add_mul_div_right i' j' hw, Nat.div_eq_of_lt hi', Nat.zero_add]
  have hj : j = j' := by rw [← e1, ← e2, h]
  subst hj
  constructor
  · omega
  · rfl

theorem setCell_size (m : PodMatrix T) (i j : Nat) (c : T) :
    (m.setCell i j c).size = m.size := rfl

theorem setCell_length (m : PodMatrix T) (i j : Nat) (c : T) :
    (m.setCell i j c).cells.length = m.cells.length :=
  List.length_set m.cells _ c

theorem getCell_setCell_self [Zero T] (m : PodMatrix T) (i j : Nat) (c : T)
    (hidx : j * m.size.1 + i < m.cells.length) :
    (m.setCell i j c).getCell i j = c := by
  unfold PodMatrix.setCell PodMatrix.getCell
  simp only
  rw [List.getD_eq_getElem?_getD, List.getElem?_set_self hidx]
  rfl

theorem getCell_setCell_ne [Zero T] (m : PodMatrix T) (i j i' j' : Nat) (c : T)
    (hne : j * m.size.1 + i ≠ j' * m.size.1 + i') :
    (m.setCell i j c).getCell i' j' = m.getCell i' j' := by
  unfold PodMatrix.setCell PodMatrix.getCell
  simp only
  rw [List.getD_eq_getElem?_getD, List.getElem?_set_ne hne, ← List.getD_eq_getElem?_getD]

theorem getCell_setCell_grid [Zero T] (m : PodMatrix T) (w th : Nat)
    (hsz : m.size = (w, th)) (hlen : m.cells.length = w * th)
    (i j i' j' : Nat) (hi : i < w) (hi' : i' < w) (hj : j < th) (c : T) :
    (m.setCell i j c).getCell i' j' = if i' = i ∧ j' = j then c else m.getCell i' j' := by
  by_cases heq : i' = i ∧ j' = j
  · rw [if_pos heq, heq.1, heq.2]
    apply getCell_setCell_self
    rw [hsz, hlen]
    exact rowMajor_bound w th i j hi hj
  · rw [if_neg heq]
    apply getCell_setCell_ne
    rw [hsz]
    intro hc
    exact heq ⟨(rowMajor_inj w i i' j j' hi hi' hc).1.symm,
      (rowMajor_inj w i i' j j' hi hi' hc).2.symm⟩

/-! ## The overwrite path through the emulator -/

theorem vtRun_drawRow (frame : PodMatrix Cell) (j cy : Nat) :
    ∀ (w' : Nat) (st : VTState) (cx : Nat), st.p = .ground → st.cursor = (cx, cy) →
      (∀ i, i < w' → cellBound (frame.getCell i j)) →
      (vtRun st ((List.range w').flatMap (fun i => (frame.getCell i j).draw))).p = .ground
      ∧ (vtRun st ((List.range w').flatMap (fun i => (frame.getCell i j).draw))).cursor
          = (cx + w', cy)
      ∧ ∀ pos : Nat × Nat,
          (vtRun st ((List.range w').flatMap (fun i => (frame.getCell i j).draw))).screen pos
            = if pos.2 = cy ∧ cx ≤ pos.1 ∧ pos.1 < cx + w'
              then frame.getCell (pos.1 - cx) j else st.screen pos := by
  intro w'
  induction w' with
  | zero =>
    intro st cx hp hcur _
    refine ⟨hp, by simpa using hcur, ?_⟩
    intro pos
    rw [if_neg (by omega)]
    rfl
  | succ w ih =>
    intro st cx hp hcur hb
    rw [List.range_succ, List.flatMap_append]
    simp only [List.flatMap_cons, List.flatMap_nil, List.append_nil]
    rw [vtRun_append]
    obtain ⟨ihp, ihcur, ihscr⟩ := ih st cx hp hcur (fun i hi => hb i (by omega))
    rw [vtRun_cellDraw _ _ ihp (hb w (by omega))]
    refine ⟨rfl, ?_, ?_⟩
    · simp only [ihcur]
      rfl
    · intro pos
      simp only [ihcur]
      by_cases hpos : pos = (cx + w, cy)
      · rw [if_pos hpos, hpos]
        rw [if_pos (by simp)]
        have harith : ((cx + w, cy) : Nat × Nat).1 - cx = w := by simp
        rw [harith]
      · rw [if_neg hpos, ihscr pos]
        by_cases h2 : pos.2 = cy ∧ cx ≤ pos.1 ∧ pos.1 < cx + w
        · rw [if_pos h2, if_pos ⟨h2.1, h2.2.1, by omega⟩]
        · rw [if_neg h2, if_neg ?_]
          intro hc
          apply hpos
          have h1 : pos.1 = cx + w := by omega
          exact Prod.ext h1 hc.1

theorem vtRun_overwriteEmit (frame : PodMatrix Cell) (offW offH termW : Nat) :
    ∀ (termH : Nat) (st : VTState), st.p = .ground →
      offW + termW ≤ 65535 → offH + termH ≤ 65535 →
      (∀ i j, i < termW → j < termH → cellBound (frame.getCell i j)) →
      (vtRun st (overwriteEmit frame offW offH termW termH)).p = .ground
      ∧ ∀ pos : Nat × Nat,
          (vtRun st (overwriteEmit frame offW offH termW termH)).screen pos
            = if offW ≤ pos.1 ∧ pos.1 < offW + termW ∧ offH ≤ pos.2 ∧ pos.2 < offH + termH
              then frame.getCell (pos.1 - offW) (pos.2 - offH) else st.screen pos := by
  intro termH
  induction termH with
  | zero =>
    intro st hp _ _ _
    refine ⟨hp, ?_⟩
    intro pos
    rw [if_neg (by omega)]
    rfl
  | succ k ih =>
    intro st hp hW hH hb
    have hemit : overwriteEmit frame offW offH termW (k + 1)
        = overwriteEmit frame offW offH termW k
          ++ (writeMove offW offH 0 k
              ++ (List.range termW).flatMap (fun i => (frame.getCell i k).draw)) := by
      unfold overwriteEmit
      rw [List.range_succ, List.flatMap_append]
      simp only [List.flatMap_cons, List.flatMap_nil, List.append_nil]
    rw [hemit, vtRun_append, vtRun_append]
    obtain ⟨ihp, ihscr⟩ := ih st hp hW (by omega) (fun i j hi hj => hb i j hi (by omega))
    unfold writeMove
    rw [vtRun_goto _ _ _ ihp]
    have hY : min ((offH + k) % 65536 + 1) 65535 - 1 = offH + k := by omega
    rw [hY]
    obtain ⟨rp, rcur, rscr⟩ := vtRun_drawRow frame k (offH + k) termW
      ⟨.ground, (min ((offW + 0) % 65536 + 1) 65535 - 1, offH + k),
        (vtRun st (overwriteEmit frame offW offH termW k)).fg,
        (vtRun st (overwriteEmit frame offW offH termW k)).bg,
        (vtRun st (overwriteEmit frame offW offH termW k)).screen⟩
      (min ((offW + 0) % 65536 + 1) 65535 - 1) rfl rfl
      (fun i hi => hb i k hi (by omega))
    refine ⟨rp, ?_⟩
    intro pos
    rw [rscr pos]
    simp only
    by_cases hA : pos.2 = offH + k
        ∧ min ((offW + 0) % 65536 + 1) 65535 - 1 ≤ pos.1
        ∧ pos.1 < min ((offW + 0) % 65536 + 1) 65535 - 1 + termW
    · have htw : 0 < termW := by omega
      have hXv : min ((offW + 0) % 65536 + 1) 65535 - 1 = offW := by omega
      rw [if_pos hA]
      rw [hXv] at hA
      rw [if_pos (by omega : offW ≤ pos.1 ∧ pos.1 < offW + termW
          ∧ offH ≤ pos.2 ∧ pos.2 < offH + (k + 1))]
      rw [hXv]
      congr 1
      omega
    · rw [if_neg hA, ihscr pos]
      by_cases hB : offW ≤ pos.1 ∧ pos.1 < offW + termW ∧ offH ≤ pos.2 ∧ pos.2 < offH + k
      · rw [if_pos hB, if_pos (by omega)]
      · rw [if_neg hB, if_neg ?_]
        intro hc
        have htw : 0 < termW := by omega
        have hXv : min ((offW + 0) % 65536 + 1) 65535 - 1 = offW := by omega
        rw [hXv] at hA
        exact hA ⟨by omega, by omega, by omega⟩

theorem setTopBottom_top (px : Cell) (r : Nat) (v : Rgb) :
    (setTopBottom px r v).rgb_top = if r % 2 = 0 then v else px.rgb_top := by
  unfold setTopBottom
  split <;> simp_all

theorem setTopBottom_bottom (px : Cell) (r : Nat) (v : Rgb) :
    (setTopBottom px r v).rgb_bottom = if r % 2 = 0 then px.rgb_bottom else v := by
  unfold setTopBottom
  split <;> simp_all

theorem overwriteUpdateRow_getCell (img : ImageRef) (r w th : Nat) (hw : w = img.width) :
    ∀ (w' : Nat) (fr : PodMatrix Cell), w' ≤ w → fr.size = (w, th) →
      fr.cells.length = w * th → r / 2 < th →
      ((List.range w').foldl (fun fr i =>
          fr.setCell i (r / 2) (setTopBottom (fr.getCell i (r / 2)) r (img.getPixelQ i r))) fr).size
        = (w, th)
      ∧ ((List.range w').foldl (fun fr i =>
          fr.setCell i (r / 2) (setTopBottom (fr.getCell i (r / 2)) r (img.getPixelQ i r))) fr).cells.length
        = w * th
      ∧ ∀ i' j', i' < w → j' < th →
          ((List.range w').foldl (fun fr i =>
            fr.setCell i (r / 2) (setTopBottom (fr.getCell i (r / 2)) r (img.getPixelQ i r))) fr).getCell i' j'
          = if j' = r / 2 ∧ i' < w'
            then setTopBottom (fr.getCell i' (r / 2)) r (img.getPixelQ i' r)
            else fr.getCell i' j' := by
  intro w'
  induction w' with
  | zero =>
    intro fr _ hsz hlen _
    refine ⟨hsz, hlen, ?_⟩
    intro i' j' _ _
    rw [if_neg (by omega), List.range_zero]
    rfl
  | succ n ih =>
    intro fr hn hsz hlen hr
    obtain ⟨ihsz, ihlen, ihcell⟩ := ih fr (by omega) hsz hlen hr
    rw [List.range_succ, List.foldl_append]
    simp only [List.foldl]
    refine ⟨by rw [setCell_size]; exact ihsz, by rw [setCell_length]; exact ihlen, ?_⟩
    intro i' j' hi' hj'
    rw [getCell_setCell_grid _ w th ihsz ihlen n (r / 2) i' j' (by omega) hi' hr]
    by_cases hcase : i' = n ∧ j' = r / 2
    · rw [if_pos hcase]
      rw [ihcell n (r / 2) (by omega) hr]
      rw [if_neg (show ¬(r / 2 = r / 2 ∧ n < n) by omega)]
      rw [if_pos (show j' = r / 2 ∧ i' < n + 1 by omega)]
      rw [hcase.1]
    · rw [if_neg hcase]
      rw [ihcell i' j' hi' hj']
      by_cases hcase2 : j' = r / 2 ∧ i' < n
      · rw [if_pos hcase2, if_pos (show j' = r / 2 ∧ i' < n + 1 by omega)]
      · rw [if_neg hcase2, if_neg (show ¬(j' = r / 2 ∧ i' < n + 1) by omega)]

theorem overwriteUpdate_getCell (img : ImageRef) (w th : Nat) (hw : w = img.width) :
    ∀ (h' : Nat) (fr : PodMatrix Cell), h' ≤ img.height → fr.size = (w, th) →
      fr.cells.length = w * th → (∀ r < h', r / 2 < th) →
      ((List.range h').foldl (fun fr j =>
          (List.range img.width).foldl (fun fr i =>
            fr.setCell i (j / 2) (setTopBottom (fr.getCell i (j / 2)) j (img.getPixelQ i j))) fr) fr).size
        = (w, th)
      ∧ ((List.range h').foldl (fun fr j =>
          (List.range img.width).foldl (fun fr i =>
            fr.setCell i (j / 2) (setTopBottom (fr.getCell i (j / 2)) j (img.getPixelQ i j))) fr) fr).cells.length
        = w * th
      ∧ ∀ i j, i < w → j < th →
          (((List.range h').foldl (fun fr j =>
            (List.range img.width).foldl (fun fr i =>
              fr.setCell i (j / 2) (setTopBottom (fr.getCell i (j / 2)) j (img.getPixelQ i j))) fr) fr).getCell i j).rgb_top
            = (if 2 * j < h' then img.getPixelQ i (2 * j) else (fr.getCell i j).rgb_top)
          ∧ (((List.range h').foldl (fun fr j =>
            (List.range img.width).foldl (fun fr i =>
              fr.setCell i (j / 2) (setTopBottom (fr.getCell i (j / 2)) j (img.getPixelQ i j))) fr) fr).getCell i j).rgb_bottom
            = (if 2 * j + 1 < h' then img.getPixelQ i (2 * j + 1) else (fr.getCell i j).rgb_bottom) := by
  intro h'
  induction h' with
  | zero =>
    intro fr _ hsz hlen _
    refine ⟨hsz, hlen, ?_⟩
    intro i j _ _
    rw [List.range_zero]
    rw [if_neg (by omega), if_neg (by omega)]
    exact ⟨rfl, rfl⟩
  | succ r ih =>
    intro fr hr hsz hlen hdiv
    obtain ⟨ihsz, ihlen, ihcell⟩ := ih fr (by omega) hsz hlen (fun x hx => hdiv x (by omega))
    rw [List.range_succ, List.foldl_append]
    simp only [List.foldl]
    have hrdiv : r / 2 < th := hdiv r (by omega)
    obtain ⟨rsz, rlen, rcell⟩ := overwriteUpdateRow_getCell img r w th hw img.width _
      (by omega) ihsz ihlen hrdiv
    refine ⟨rsz, rlen, ?_⟩
    intro i j hi hj
    rw [rcell i j hi hj]
    by_cases hcase : j = r / 2 ∧ i < img.width
    · rw [if_pos hcase, ← hcase.1]
      rw [setTopBottom_top, setTopBottom_bottom]
      obtain ⟨ht, hb⟩ := ihcell i j hi hj
      constructor
      · by_cases hpar : r % 2 = 0
        · rw [if_pos hpar, if_pos (show 2 * j < r + 1 by omega)]
          congr 1
          omega
        · rw [if_neg hpar, ht]
          by_cases h2j : 2 * j < r
          · rw [if_pos h2j, if_pos (by omega)]
          · rw [if_neg h2j, if_neg (by omega)]
      · by_cases hpar : r % 2 = 0
        · rw [if_pos hpar, hb]
          by_cases h2j : 2 * j + 1 < r
          · rw [if_pos h2j, if_pos (by omega)]
          · rw [if_neg h2j, if_neg (by omega)]
        · rw [if_neg hpar, if_pos (show 2 * j + 1 < r + 1 by omega)]
          congr 1
          omega
    · rw [if_neg hcase]
      obtain ⟨ht, hb⟩ := ihcell i j hi hj
      have hne : j ≠ r / 2 := fun hc => hcase ⟨hc, by omega⟩
      constructor
      · rw [ht]
        by_cases h2j : 2 * j < r
        · rw [if_pos h2j, if_pos (by omega)]
        · rw [if_neg h2j, if_neg (by omega)]
      · rw [hb]
        by_cases h2j : 2 * j + 1 < r
        · rw [if_pos h2j, if_pos (by omega)]
        · rw [if_neg h2j, if_neg (by omega)]

theorem zeroBottomTail_size (fr : PodMatrix Cell) (start : Nat) :
    (zeroBottomTail fr start).size = fr.size := rfl

theorem zeroBottomTail_length (fr : PodMatrix Cell) (start : Nat) :
    (zeroBottomTail fr start).cells.length = fr.cells.length := by
  unfold zeroBottomTail
  simp only [List.length_append, List.length_take, List.length_map, List.length_drop]
  omega

theorem zeroBottomTail_getCell (fr : PodMatrix Cell) (start i j : Nat)
    (hidx : j * fr.size.1 + i < fr.cells.length) :
    (zeroBottomTail fr start).getCell i j
      = if start ≤ j * fr.size.1 + i
        then ⟨(fr.getCell i j).rgb_top, zeroRgb⟩
        else fr.getCell i j := by
  unfold zeroBottomTail PodMatrix.getCell
  simp only
  rw [List.getD_eq_getElem?_getD, List.getD_eq_getElem?_getD]
  by_cases hk : start ≤ j * fr.size.1 + i
  · rw [if_pos hk]
    rw [List.getElem?_append_right (by
      rw [List.length_take]
      omega)]
    rw [List.length_take]
    have hmin : min start fr.cells.length = start := by omega
    rw [hmin]
    rw [List.getElem?_map, List.getElem?_drop]
    have harith : start + (j * fr.size.1 + i - start) = j * fr.size.1 + i := by omega
    rw [harith]
    rcases hcell : fr.cells[j * fr.size.1 + i]? with _ | c
    · rw [List.getElem?_eq_none_iff] at hcell
      omega
    · rfl
  · rw [if_neg hk]
    rw [List.getElem?_append_left (by
      rw [List.length_take]
      omega)]
    rw [List.getElem?_take_of_lt (by omega)]

theorem cell_eq_of_fields (a b : Cell) (h1 : a.rgb_top = b.rgb_top)
    (h2 : a.rgb_bottom = b.rgb_bottom) : a = b := by
  cases a
  cases b
  simp_all

theorem expectedCell_bound (img : ImageRef) (i j : Nat) :
    cellBound (expectedCell img i j) := by
  unfold expectedCell cellBound
  refine ⟨quantize_bound _, ?_⟩
  split
  · exact quantize_bound _
  · unfold rgbBound zeroRgb
    norm_num

theorem vtRun_clearAll : vtRun initVT clearAllBytes = initVT := rfl

theorem vtRun_reset (st : VTState) (hp : st.p = .ground) :
    (vtRun st resetBytes).p = .ground
    ∧ ∀ pos, (vtRun st resetBytes).screen pos = st.screen pos := by
  obtain ⟨p, cur2, fg0, bg0, scr⟩ := st
  simp only at hp
  subst hp
  exact ⟨rfl, fun pos => rfl⟩

theorem expectedCell_top (img : ImageRef) (i j : Nat) :
    (expectedCell img i j).rgb_top = img.getPixelQ i (2 * j) := rfl

theorem expectedCell_bottom (img : ImageRef) (i j : Nat) :
    (expectedCell img i j).rgb_bottom
      = if 2 * j + 1 < img.height then img.getPixelQ i (2 * j + 1) else zeroRgb := rfl

theorem resizedFrame_props (f0 : PodMatrix Cell) (img : ImageRef)
    (hinv : f0.cells.length = f0.size.1 * f0.size.2) :
    (if termSizeOf img ≠ f0.size then f0.resize (termSizeOf img) else f0).size
      = (img.width, (img.height + 1) / 2)
    ∧ (if termSizeOf img ≠ f0.size then f0.resize (termSizeOf img) else f0).cells.length
      = img.width * ((img.height + 1) / 2) := by
  split
  · constructor
    · exact (podmatrix_resize_length f0 (termSizeOf img)).2
    · have := (podmatrix_resize_length f0 (termSizeOf img)).1
      simpa [termSizeOf] using this
  · next hc =>
    push_neg at hc
    constructor
    · rw [← hc]
      rfl
    · rw [hinv, ← hc]
      rfl

theorem overwriteFrame_cells (fr1 : PodMatrix Cell) (img : ImageRef)
    (hsz : fr1.size = (img.width, (img.height + 1) / 2))
    (hlen : fr1.cells.length = img.width * ((img.height + 1) / 2)) :
    (if img.height % 2 ≠ 0 then
        zeroBottomTail (overwriteUpdate fr1 img) (img.width * (img.height / 2))
      else overwriteUpdate fr1 img).size = (img.width, (img.height + 1) / 2)
    ∧ ∀ i j, i < img.width → j < (img.height + 1) / 2 →
        (if img.height % 2 ≠ 0 then
          zeroBottomTail (overwriteUpdate fr1 img) (img.width * (img.height / 2))
        else overwriteUpdate fr1 img).getCell i j = expectedCell img i j := by
  obtain ⟨h2sz, h2len, h2cell⟩ := overwriteUpdate_getCell img img.width ((img.height + 1) / 2)
    rfl img.height fr1 le_rfl hsz hlen (fun r hr => by omega)
  have hfr2sz : (overwriteUpdate fr1 img).size = (img.width, (img.height + 1) / 2) := h2sz
  have hfr2len : (overwriteUpdate fr1 img).cells.length
      = img.width * ((img.height + 1) / 2) := h2len
  have hw1 : (overwriteUpdate fr1 img).size.1 = img.width := by rw [hfr2sz]
  constructor
  · split
    · rw [zeroBottomTail_size]
      exact hfr2sz
    · exact hfr2sz
  · intro i j hi hj
    obtain ⟨ht, hb⟩ := h2cell i j hi hj
    have ht2 : ((overwriteUpdate fr1 img).getCell i j).rgb_top
        = (if 2 * j < img.height then img.getPixelQ i (2 * j)
          else (fr1.getCell i j).rgb_top) := ht
    have hb2 : ((overwriteUpdate fr1 img).getCell i j).rgb_bottom
        = (if 2 * j + 1 < img.height then img.getPixelQ i (2 * j + 1)
          else (fr1.getCell i j).rgb_bottom) := hb
    have htop : 2 * j < img.height := by omega
    split
    · next hodd =>
      rw [zeroBottomTail_getCell _ _ i j (by
        rw [hfr2len, hw1]
        exact rowMajor_bound _ _ i j hi hj)]
      rw [hw1]
      by_cases hjlast : j = img.height / 2
      · subst hjlast
        have hcomm : img.width * (img.height / 2) = img.height / 2 * img.width :=
          Nat.mul_comm _ _
        rw [if_pos (by omega)]
        apply cell_eq_of_fields
        · show ((overwriteUpdate fr1 img).getCell i (img.height / 2)).rgb_top
            = (expectedCell img i (img.height / 2)).rgb_top
          rw [ht2, if_pos htop, expectedCell_top]
        · show zeroRgb = (expectedCell img i (img.height / 2)).rgb_bottom
          rw [expectedCell_bottom, if_neg (by omega)]
      · have hjlt : j < img.height / 2 := by omega
        have hbnd := rowMajor_bound img.width (img.height / 2) i j hi hjlt
        rw [if_neg (by omega)]
        apply cell_eq_of_fields
        · rw [ht2, if_pos htop, expectedCell_top]
        · rw [hb2, if_pos (by omega), expectedCell_bottom, if_pos (by omega)]
    · next hodd =>
      apply cell_eq_of_fields
      · rw [ht2, if_pos htop, expectedCell_top]
      · rw [hb2, if_pos (by omega), expectedCell_bottom, if_pos (by omega)]

theorem renderCore_true_eq (f0 : PodMatrix Cell) (img : ImageRef) (offW offH : Nat) :
    renderCore f0 img true (offW, offH)
      = ((if img.height % 2 ≠ 0 then
            zeroBottomTail (overwriteUpdate
              (if termSizeOf img ≠ f0.size then f0.resize (termSizeOf img) else f0) img)
              (img.width * (img.height / 2))
          else overwriteUpdate
            (if termSizeOf img ≠ f0.size then f0.resize (termSizeOf img) else f0) img),
        clearAllBytes ++ overwriteEmit
          (if img.height % 2 ≠ 0 then
            zeroBottomTail (overwriteUpdate
              (if termSizeOf img ≠ f0.size then f0.resize (termSizeOf img) else f0) img)
              (img.width * (img.height / 2))
          else overwriteUpdate
            (if termSizeOf img ≠ f0.size then f0.resize (termSizeOf img) else f0) img)
          offW offH img.width ((img.height + 1) / 2)) := rfl

theorem overwriteBytes_screen (fr3 : PodMatrix Cell) (img : ImageRef) (offW offH : Nat)
    (hcell3 : ∀ i j, i < img.width → j < (img.height + 1) / 2 →
      fr3.getCell i j = expectedCell img i j)
    (hW : offW + img.width ≤ 65535) (hH : offH + (img.height + 1) / 2 ≤ 65535) :
    (vtRun initVT (clearAllBytes
        ++ overwriteEmit fr3 offW offH img.width ((img.height + 1) / 2))).p = .ground
    ∧ ∀ pos : Nat × Nat,
        (vtRun initVT (clearAllBytes
            ++ overwriteEmit fr3 offW offH img.width ((img.height + 1) / 2))).screen pos
          = if offW ≤ pos.1 ∧ pos.1 < offW + img.width
              ∧ offH ≤ pos.2 ∧ pos.2 < offH + (img.height + 1) / 2
            then expectedCell img (pos.1 - offW) (pos.2 - offH) else zeroCell := by
  rw [vtRun_append, vtRun_clearAll]
  obtain ⟨ep, escr⟩ := vtRun_overwriteEmit fr3 offW offH img.width ((img.height + 1) / 2)
    initVT rfl hW hH
    (fun i j hi hj => by
      rw [hcell3 i j hi hj]
      exact expectedCell_bound img i j)
  refine ⟨ep, ?_⟩
  intro pos
  rw [escr pos]
  by_cases hr : offW ≤ pos.1 ∧ pos.1 < offW + img.width
      ∧ offH ≤ pos.2 ∧ pos.2 < offH + (img.height + 1) / 2
  · rw [if_pos hr, if_pos hr, hcell3 _ _ (by omega) (by omega)]
  · rw [if_neg hr, if_neg hr]
    rfl

/-! ## The diff path through the emulator (freshly-cleared frame) -/

theorem vtRun_accGoto (offW offH n j w : Nat) (hn : n < w) (hW : offW + w ≤ 65535)
    (hH : offH + j ≤ 65534) (st : VTState) (acc : List Nat)
    (ip : (vtRun st acc).p = .ground) :
    (vtRun st (acc ++ writeMove offW offH n j)).p = .ground
    ∧ (vtRun st (acc ++ writeMove offW offH n j)).cursor = (offW + n, offH + j)
    ∧ ∀ pos, (vtRun st (acc ++ writeMove offW offH n j)).screen pos
        = (vtRun st acc).screen pos := by
  rw [vtRun_append]
  unfold writeMove
  rw [vtRun_goto _ _ _ ip]
  refine ⟨rfl, ?_, fun pos => rfl⟩
  simp only
  have hx : min ((offW + n) % 65536 + 1) 65535 - 1 = offW + n := by omega
  have hy : min ((offH + j) % 65536 + 1) 65535 - 1 = offH + j := by omega
  rw [hx, hy]

theorem diffRowStep_semantics (img : ImageRef) (offW offH j w th n : Nat)
    (hj : j < th) (hn : n < w)
    (hW : offW + w ≤ 65535) (hH : offH + j ≤ 65534)
    (fr0 : PodMatrix Cell) (fr : PodMatrix Cell) (lastChanged : Bool) (acc : List Nat)
    (st : VTState)
    (hrowzero : ∀ pos : Nat × Nat, pos.2 = offH + j → st.screen pos = zeroCell)
    (isz : fr.size = (w, th)) (ilen : fr.cells.length = w * th)
    (irows : ∀ i' j', i' < w → j' < th → j' ≠ j → fr.getCell i' j' = fr0.getCell i' j')
    (izero : ∀ i', i' < w → n ≤ i' → fr.getCell i' j = zeroCell)
    (ip : (vtRun st acc).p = .ground)
    (icur : lastChanged = true → (vtRun st acc).cursor = (offW + n, offH + j))
    (iscr : ∀ pos : Nat × Nat, (vtRun st acc).screen pos
      = if pos.2 = offH + j ∧ offW ≤ pos.1 ∧ pos.1 < offW + n
        then Cell.mk (img.getPixelQ (pos.1 - offW) (j * 2))
          (img.getPixelQ (pos.1 - offW) (j * 2 + 1))
        else st.screen pos) :
    (diffRowStep img offW offH j (fr, lastChanged, acc) n).1.size = (w, th)
    ∧ (diffRowStep img offW offH j (fr, lastChanged, acc) n).1.cells.length = w * th
    ∧ (∀ i' j', i' < w → j' < th → j' ≠ j →
        (diffRowStep img offW offH j (fr, lastChanged, acc) n).1.getCell i' j'
          = fr0.getCell i' j')
    ∧ (∀ i', i' < w → n + 1 ≤ i' →
        (diffRowStep img offW offH j (fr, lastChanged, acc) n).1.getCell i' j = zeroCell)
    ∧ (vtRun st (diffRowStep img offW offH j (fr, lastChanged, acc) n).2.2).p = .ground
    ∧ ((diffRowStep img offW offH j (fr, lastChanged, acc) n).2.1 = true →
        (vtRun st (diffRowStep img offW offH j (fr, lastChanged, acc) n).2.2).cursor
          = (offW + (n + 1), offH + j))
    ∧ ∀ pos : Nat × Nat,
        (vtRun st (diffRowStep img offW offH j (fr, lastChanged, acc) n).2.2).screen pos
          = if pos.2 = offH + j ∧ offW ≤ pos.1 ∧ pos.1 < offW + (n + 1)
            then Cell.mk (img.getPixelQ (pos.1 - offW) (j * 2))
              (img.getPixelQ (pos.1 - offW) (j * 2 + 1))
            else st.screen pos := by
  have hcellzero : fr.getCell n j = zeroCell := izero n hn le_rfl
  simp only [diffRowStep]
  rw [hcellzero]
  by_cases hch : img.getPixelQ n (j * 2) = zeroRgb ∧ img.getPixelQ n (j * 2 + 1) = zeroRgb
  · rw [if_neg (by
      simp only [zeroCell, ne_eq, not_or, not_not]
      exact ⟨hch.1.symm, hch.2.symm⟩)]
    refine ⟨isz, ilen, irows, fun i' hi' hni' => izero i' hi' (by omega), ip, ?_, ?_⟩
    · intro h
      simp at h
    · intro pos
      rw [iscr pos]
      by_cases hcn : pos.2 = offH + j ∧ offW ≤ pos.1 ∧ pos.1 < offW + n
      · rw [if_pos hcn, if_pos (show pos.2 = offH + j ∧ offW ≤ pos.1
          ∧ pos.1 < offW + (n + 1) by omega)]
      · rw [if_neg hcn]
        by_cases hc : pos.2 = offH + j ∧ offW ≤ pos.1 ∧ pos.1 < offW + (n + 1)
        · rw [if_pos hc]
          have hpos1 : pos.1 - offW = n := by omega
          rw [hrowzero pos hc.1, hpos1, hch.1, hch.2]
          rfl
        · rw [if_neg hc]
  · rw [if_pos (by
      rcases not_and_or.mp hch with h | h
      · exact Or.inl (Ne.symm h)
      · exact Or.inr (Ne.symm h))]
    have hbnd : cellBound (Cell.mk (img.getPixelQ n (j * 2)) (img.getPixelQ n (j * 2 + 1))) :=
      ⟨quantize_bound _, quantize_bound _⟩
    have hmain : ∀ (acc2 : List Nat),
        (vtRun st acc2).p = .ground → (vtRun st acc2).cursor = (offW + n, offH + j) →
        (∀ pos, (vtRun st acc2).screen pos = (vtRun st acc).screen pos) →
        (vtRun st (acc2
            ++ (Cell.mk (img.getPixelQ n (j * 2)) (img.getPixelQ n (j * 2 + 1))).draw)).p
          = .ground
        ∧ (vtRun st (acc2
            ++ (Cell.mk (img.getPixelQ n (j * 2)) (img.getPixelQ n (j * 2 + 1))).draw)).cursor
          = (offW + (n + 1), offH + j)
        ∧ ∀ pos : Nat × Nat,
            (vtRun st (acc2
              ++ (Cell.mk (img.getPixelQ n (j * 2)) (img.getPixelQ n (j * 2 + 1))).draw)).screen pos
            = if pos.2 = offH + j ∧ offW ≤ pos.1 ∧ pos.1 < offW + (n + 1)
              then Cell.mk (img.getPixelQ (pos.1 - offW) (j * 2))
                (img.getPixelQ (pos.1 - offW) (j * 2 + 1))
              else st.screen pos := by
      intro acc2 hap hacur hascr
      rw [vtRun_append, vtRun_cellDraw _ _ hap hbnd, hacur]
      refine ⟨rfl, rfl, ?_⟩
      intro pos
      simp only
      by_cases hpos : pos = (offW + n, offH + j)
      · rw [if_pos hpos, hpos]
        rw [if_pos (show ((offW + n, offH + j) : Nat × Nat).2 = offH + j
            ∧ offW ≤ ((offW + n, offH + j) : Nat × Nat).1
            ∧ ((offW + n, offH + j) : Nat × Nat).1 < offW + (n + 1) by
          refine ⟨rfl, ?_, ?_⟩ <;> simp)]
        have hpos1 : ((offW + n, offH + j) : Nat × Nat).1 - offW = n := by simp
        rw [hpos1]
      · rw [if_neg hpos, hascr pos, iscr pos]
        by_cases hcn : pos.2 = offH + j ∧ offW ≤ pos.1 ∧ pos.1 < offW + n
        · rw [if_pos hcn, if_pos (show pos.2 = offH + j ∧ offW ≤ pos.1
            ∧ pos.1 < offW + (n + 1) by omega)]
        · rw [if_neg hcn, if_neg (by
            intro hc
            apply hpos
            have h1 : pos.1 = offW + n := by omega
            exact Prod.ext h1 hc.1)]
    have hframe : ∀ (c : Cell),
        (fr.setCell n j c).size = (w, th)
        ∧ (fr.setCell n j c).cells.length = w * th
        ∧ (∀ i' j', i' < w → j' < th → j' ≠ j →
            (fr.setCell n j c).getCell i' j' = fr0.getCell i' j')
        ∧ (∀ i', i' < w → n + 1 ≤ i' → (fr.setCell n j c).getCell i' j = zeroCell) := by
      intro c
      refine ⟨by rw [setCell_size]; exact isz, by rw [setCell_length]; exact ilen, ?_, ?_⟩
      · intro i' j' hi' hj' hne
        rw [getCell_setCell_grid _ w th isz ilen n j i' j' hn hi' hj]
        rw [if_neg (by omega)]
        exact irows i' j' hi' hj' hne
      · intro i' hi' hni'
        rw [getCell_setCell_grid _ w th isz ilen n j i' j hn hi' hj]
        rw [if_neg (by omega)]
        exact izero i' hi' (by omega)
    obtain ⟨hf1, hf2, hf3, hf4⟩ := hframe
      (Cell.mk (img.getPixelQ n (j * 2)) (img.getPixelQ n (j * 2 + 1)))
    cases lastChanged with
    | false =>
      simp only [Bool.false_eq_true, if_false]
      have hgp := vtRun_accGoto offW offH n j w hn hW hH st acc ip
      generalize hacc2 : acc ++ writeMove offW offH n j = acc2v at hgp ⊢
      obtain ⟨hm1, hm2, hm3⟩ := hmain acc2v hgp.1 hgp.2.1 hgp.2.2
      exact ⟨hf1, hf2, hf3, hf4, hm1, fun _ => hm2, hm3⟩
    | true =>
      simp only [if_true]
      obtain ⟨hm1, hm2, hm3⟩ := hmain _ ip (icur rfl) (fun pos => rfl)
      exact ⟨hf1, hf2, hf3, hf4, hm1, fun _ => hm2, hm3⟩

theorem freshFrame_getCell (w th i j : Nat) :
    (freshFrame w th).getCell i j = zeroCell := by
  unfold freshFrame PodMatrix.getCell
  simp only [List.getD_eq_getElem?_getD, List.getElem?_replicate]
  split <;> rfl

theorem diffRow_semantics (img : ImageRef) (offW offH j th : Nat)
    (fr0 : PodMatrix Cell) (st : VTState)
    (hj : j < th) (hW : offW + img.width ≤ 65535) (hH : offH + j ≤ 65534)
    (hrowzero : ∀ pos : Nat × Nat, pos.2 = offH + j → st.screen pos = zeroCell)
    (isz : fr0.size = (img.width, th)) (ilen : fr0.cells.length = img.width * th)
    (izero : ∀ i', i' < img.width → fr0.getCell i' j = zeroCell)
    (hp : st.p = .ground) :
    (diffRow fr0 img offW offH j).1.size = (img.width, th)
    ∧ (diffRow fr0 img offW offH j).1.cells.length = img.width * th
    ∧ (∀ i' j', i' < img.width → j' < th → j' ≠ j →
        (diffRow fr0 img offW offH j).1.getCell i' j' = fr0.getCell i' j')
    ∧ (vtRun st (diffRow fr0 img offW offH j).2).p = .ground
    ∧ ∀ pos : Nat × Nat, (vtRun st (diffRow fr0 img offW offH j).2).screen pos
        = if pos.2 = offH + j ∧ offW ≤ pos.1 ∧ pos.1 < offW + img.width
          then Cell.mk (img.getPixelQ (pos.1 - offW) (j * 2))
            (img.getPixelQ (pos.1 - offW) (j * 2 + 1))
          else st.screen pos := by
  have hs : ∀ n, n ≤ img.width →
      ((List.range n).foldl (diffRowStep img offW offH j)
        (fr0, false, ([] : List Nat))).1.size = (img.width, th)
      ∧ ((List.range n).foldl (diffRowStep img offW offH j)
          (fr0, false, ([] : List Nat))).1.cells.length = img.width * th
      ∧ (∀ i' j', i' < img.width → j' < th → j' ≠ j →
          ((List.range n).foldl (diffRowStep img offW offH j)
            (fr0, false, ([] : List Nat))).1.getCell i' j' = fr0.getCell i' j')
      ∧ (∀ i', i' < img.width → n ≤ i' →
          ((List.range n).foldl (diffRowStep img offW offH j)
            (fr0, false, ([] : List Nat))).1.getCell i' j = zeroCell)
      ∧ (vtRun st ((List.range n).foldl (diffRowStep img offW offH j)
          (fr0, false, ([] : List Nat))).2.2).p = .ground
      ∧ (((List.range n).foldl (diffRowStep img offW offH j)
            (fr0, false, ([] : List Nat))).2.1 = true →
          (vtRun st ((List.range n).foldl (diffRowStep img offW offH j)
            (fr0, false, ([] : List Nat))).2.2).cursor = (offW + n, offH + j))
      ∧ ∀ pos : Nat × Nat,
          (vtRun st ((List.range n).foldl (diffRowStep img offW offH j)
            (fr0, false, ([] : List Nat))).2.2).screen pos
          = if pos.2 = offH + j ∧ offW ≤ pos.1 ∧ pos.1 < offW + n
            then Cell.mk (img.getPixelQ (pos.1 - offW) (j * 2))
              (img.getPixelQ (pos.1 - offW) (j * 2 + 1))
            else st.screen pos := by
    intro n
    induction n with
    | zero =>
      intro _
      refine ⟨isz, ilen, fun _ _ _ _ _ => rfl, fun i' hi' _ => izero i' hi', hp, ?_, ?_⟩
      · intro h
        exact Bool.noConfusion h
      · intro pos
        rw [if_neg (by omega)]
        rfl
    | succ k ih =>
      intro hn
      obtain ⟨i1, i2, i3, i4, i5, i6, i7⟩ := ih (by omega)
      rw [List.range_succ, List.foldl_append]
      simp only [List.foldl]
      exact diffRowStep_semantics img offW offH j img.width th k hj (by omega) hW hH fr0
        ((List.range k).foldl (diffRowStep img offW offH j) (fr0, false, ([] : List Nat))).1
        ((List.range k).foldl (diffRowStep img offW offH j) (fr0, false, ([] : List Nat))).2.1
        ((List.range k).foldl (diffRowStep img offW offH j) (fr0, false, ([] : List Nat))).2.2
        st hrowzero i1 i2 i3 i4 i5 i6 i7
  obtain ⟨h1, h2, h3, _, h5, _, h7⟩ := hs img.width le_rfl
  exact ⟨h1, h2, h3, h5, h7⟩

theorem diffRows_semantics (img : ImageRef) (offW offH th : Nat) (fr0 : PodMatrix Cell)
    (hth2 : img.height / 2 ≤ th)
    (hW : offW + img.width ≤ 65535) (hH : offH + th ≤ 65535)
    (isz : fr0.size = (img.width, th)) (ilen : fr0.cells.length = img.width * th)
    (izero : ∀ i' j', i' < img.width → j' < th → fr0.getCell i' j' = zeroCell) :
    ∀ k, k ≤ img.height / 2 →
      ((List.range k).foldl (fun st j =>
          let r := diffRow st.1 img offW offH j
          (r.1, st.2 ++ r.2)) (fr0, ([] : List Nat))).1.size = (img.width, th)
      ∧ ((List.range k).foldl (fun st j =>
          let r := diffRow st.1 img offW offH j
          (r.1, st.2 ++ r.2)) (fr0, ([] : List Nat))).1.cells.length = img.width * th
      ∧ (∀ i' j', i' < img.width → j' < th → k ≤ j' →
          ((List.range k).foldl (fun st j =>
            let r := diffRow st.1 img offW offH j
            (r.1, st.2 ++ r.2)) (fr0, ([] : List Nat))).1.getCell i' j' = zeroCell)
      ∧ (vtRun initVT ((List.range k).foldl (fun st j =>
          let r := diffRow st.1 img offW offH j
          (r.1, st.2 ++ r.2)) (fr0, ([] : List Nat))).2).p = .ground
      ∧ ∀ pos : Nat × Nat,
          (vtRun initVT ((List.range k).foldl (fun st j =>
            let r := diffRow st.1 img offW offH j
            (r.1, st.2 ++ r.2)) (fr0, ([] : List Nat))).2).screen pos
          = if offH ≤ pos.2 ∧ pos.2 < offH + k ∧ offW ≤ pos.1 ∧ pos.1 < offW + img.width
            then Cell.mk (img.getPixelQ (pos.1 - offW) ((pos.2 - offH) * 2))
              (img.getPixelQ (pos.1 - offW) ((pos.2 - offH) * 2 + 1))
            else zeroCell := by
  intro k
  induction k with
  | zero =>
    intro _
    refine ⟨isz, ilen, fun i' j' hi' hj' _ => izero i' j' hi' hj', rfl, ?_⟩
    intro pos
    rw [if_neg (by omega)]
    rfl
  | succ k ih =>
    intro hn
    obtain ⟨i1, i2, i3, i4, i5⟩ := ih (by omega)
    rw [List.range_succ, List.foldl_append]
    simp only [List.foldl]
    obtain ⟨d1, d2, d3, d4, d5⟩ := diffRow_semantics img offW offH k th
      ((List.range k).foldl (fun st j =>
        let r := diffRow st.1 img offW offH j
        (r.1, st.2 ++ r.2)) (fr0, ([] : List Nat))).1
      (vtRun initVT ((List.range k).foldl (fun st j =>
        let r := diffRow st.1 img offW offH j
        (r.1, st.2 ++ r.2)) (fr0, ([] : List Nat))).2)
      (by omega) hW (by omega)
      (by
        intro pos hp2
        rw [i5 pos, if_neg (by omega)])
      i1 i2
      (fun i' hi' => i3 i' k hi' (by omega) le_rfl)
      i4
    refine ⟨d1, d2, ?_, ?_, ?_⟩
    · intro i' j' hi' hj' hk
      rw [d3 i' j' hi' hj' (by omega)]
      exact i3 i' j' hi' hj' (by omega)
    · rw [vtRun_append]
      exact d4
    · intro pos
      rw [vtRun_append, d5 pos]
      by_cases hrow : pos.2 = offH + k ∧ offW ≤ pos.1 ∧ pos.1 < offW + img.width
      · rw [if_pos hrow, if_pos (show offH ≤ pos.2 ∧ pos.2 < offH + (k + 1)
            ∧ offW ≤ pos.1 ∧ pos.1 < offW + img.width by omega)]
        have h2 : pos.2 - offH = k := by omega
        rw [h2]
      · rw [if_neg hrow, i5 pos]
        by_cases hold : offH ≤ pos.2 ∧ pos.2 < offH + k ∧ offW ≤ pos.1 ∧ pos.1 < offW + img.width
        · rw [if_pos hold, if_pos (show offH ≤ pos.2 ∧ pos.2 < offH + (k + 1)
              ∧ offW ≤ pos.1 ∧ pos.1 < offW + img.width by omega)]
        · rw [if_neg hold, if_neg (show ¬(offH ≤ pos.2 ∧ pos.2 < offH + (k + 1)
              ∧ offW ≤ pos.1 ∧ pos.1 < offW + img.width) by omega)]

theorem diffLastRowStep_semantics (img : ImageRef) (offW offH j w th n : Nat)
    (hj : j < th) (hn : n < w)
    (hW : offW + w ≤ 65535) (hH : offH + j ≤ 65534)
    (fr : PodMatrix Cell) (lastChanged : Bool) (acc : List Nat)
    (st : VTState)
    (hrowzero : ∀ pos : Nat × Nat, pos.2 = offH + j → st.screen pos = zeroCell)
    (isz : fr.size = (w, th)) (ilen : fr.cells.length = w * th)
    (izero : ∀ i', i' < w → n ≤ i' → fr.getCell i' j = zeroCell)
    (ip : (vtRun st acc).p = .ground)
    (icur : lastChanged = true → (vtRun st acc).cursor = (offW + n, offH + j))
    (iscr : ∀ pos : Nat × Nat, (vtRun st acc).screen pos
      = if pos.2 = offH + j ∧ offW ≤ pos.1 ∧ pos.1 < offW + n
        then Cell.mk (img.getPixelQ (pos.1 - offW) (j * 2)) zeroRgb
        else st.screen pos) :
    (diffLastRowStep img offW offH j (fr, lastChanged, acc) n).1.size = (w, th)
    ∧ (diffLastRowStep img offW offH j (fr, lastChanged, acc) n).1.cells.length = w * th
    ∧ (∀ i', i' < w → n + 1 ≤ i' →
        (diffLastRowStep img offW offH j (fr, lastChanged, acc) n).1.getCell i' j = zeroCell)
    ∧ (vtRun st (diffLastRowStep img offW offH j (fr, lastChanged, acc) n).2.2).p = .ground
    ∧ ((diffLastRowStep img offW offH j (fr, lastChanged, acc) n).2.1 = true →
        (vtRun st (diffLastRowStep img offW offH j (fr, lastChanged, acc) n).2.2).cursor
          = (offW + (n + 1), offH + j))
    ∧ ∀ pos : Nat × Nat,
        (vtRun st (diffLastRowStep img offW offH j (fr, lastChanged, acc) n).2.2).screen pos
          = if pos.2 = offH + j ∧ offW ≤ pos.1 ∧ pos.1 < offW + (n + 1)
            then Cell.mk (img.getPixelQ (pos.1 - offW) (j * 2)) zeroRgb
            else st.screen pos := by
  have hcellzero : fr.getCell n j = zeroCell := izero n hn le_rfl
  simp only [diffLastRowStep]
  rw [hcellzero]
  by_cases hch : img.getPixelQ n (j * 2) = zeroRgb
  · rw [if_neg (by
      simp only [zeroCell, ne_eq, not_not]
      exact hch.symm)]
    refine ⟨isz, ilen, fun i' hi' hni' => izero i' hi' (by omega), ip, ?_, ?_⟩
    · intro h
      simp at h
    · intro pos
      rw [iscr pos]
      by_cases hcn : pos.2 = offH + j ∧ offW ≤ pos.1 ∧ pos.1 < offW + n
      · rw [if_pos hcn, if_pos (show pos.2 = offH + j ∧ offW ≤ pos.1
          ∧ pos.1 < offW + (n + 1) by omega)]
      · rw [if_neg hcn]
        by_cases hc : pos.2 = offH + j ∧ offW ≤ pos.1 ∧ pos.1 < offW + (n + 1)
        · rw [if_pos hc]
          have hpos1 : pos.1 - offW = n := by omega
          rw [hrowzero pos hc.1, hpos1, hch]
          rfl
        · rw [if_neg hc]
  · rw [if_pos (show zeroCell.rgb_top ≠ img.getPixelQ n (j * 2) from fun h => hch h.symm)]
    have hbnd : cellBound (Cell.mk (img.getPixelQ n (j * 2)) zeroCell.rgb_bottom) :=
      ⟨quantize_bound _, show rgbBound zeroRgb by unfold rgbBound; decide⟩
    have hmain : ∀ (acc2 : List Nat),
        (vtRun st acc2).p = .ground → (vtRun st acc2).cursor = (offW + n, offH + j) →
        (∀ pos, (vtRun st acc2).screen pos = (vtRun st acc).screen pos) →
        (vtRun st (acc2
            ++ (Cell.mk (img.getPixelQ n (j * 2)) zeroCell.rgb_bottom).draw)).p
          = .ground
        ∧ (vtRun st (acc2
            ++ (Cell.mk (img.getPixelQ n (j * 2)) zeroCell.rgb_bottom).draw)).cursor
          = (offW + (n + 1), offH + j)
        ∧ ∀ pos : Nat × Nat,
            (vtRun st (acc2
              ++ (Cell.mk (img.getPixelQ n (j * 2)) zeroCell.rgb_bottom).draw)).screen pos
            = if pos.2 = offH + j ∧ offW ≤ pos.1 ∧ pos.1 < offW + (n + 1)
              then Cell.mk (img.getPixelQ (pos.1 - offW) (j * 2)) zeroRgb
              else st.screen pos := by
      intro acc2 hap hacur hascr
      rw [vtRun_append, vtRun_cellDraw _ _ hap hbnd, hacur]
      refine ⟨rfl, rfl, ?_⟩
      intro pos
      simp only
      by_cases hpos : pos = (offW + n, offH + j)
      · rw [if_pos hpos, hpos]
        rw [if_pos (show ((offW + n, offH + j) : Nat × Nat).2 = offH + j
            ∧ offW ≤ ((offW + n, offH + j) : Nat × Nat).1
            ∧ ((offW + n, offH + j) : Nat × Nat).1 < offW + (n + 1) by
          refine ⟨rfl, ?_, ?_⟩ <;> simp)]
        have hpos1 : ((offW + n, offH + j) : Nat × Nat).1 - offW = n := by simp
        rw [hpos1]
        rfl
      · rw [if_neg hpos, hascr pos, iscr pos]
        by_cases hcn : pos.2 = offH + j ∧ offW ≤ pos.1 ∧ pos.1 < offW + n
        · rw [if_pos hcn, if_pos (show pos.2 = offH + j ∧ offW ≤ pos.1
            ∧ pos.1 < offW + (n + 1) by omega)]
        · rw [if_neg hcn, if_neg (by
            intro hc
            apply hpos
            have h1 : pos.1 = offW + n := by omega
            exact Prod.ext h1 hc.1)]
    have hframe : ∀ (c : Cell),
        (fr.setCell n j c).size = (w, th)
        ∧ (fr.setCell n j c).cells.length = w * th
        ∧ (∀ i', i' < w → n + 1 ≤ i' → (fr.setCell n j c).getCell i' j = zeroCell) := by
      intro c
      refine ⟨by rw [setCell_size]; exact isz, by rw [setCell_length]; exact ilen, ?_⟩
      intro i' hi' hni'
      rw [getCell_setCell_grid _ w th isz ilen n j i' j hn hi' hj]
      rw [if_neg (by omega)]
      exact izero i' hi' (by omega)
    obtain ⟨hf1, hf2, hf3⟩ := hframe
      (Cell.mk (img.getPixelQ n (j * 2)) zeroCell.rgb_bottom)
    cases lastChanged with
    | false =>
      simp only [Bool.false_eq_true, if_false]
      have hgp := vtRun_accGoto offW offH n j w hn hW hH st acc ip
      generalize hacc2 : acc ++ writeMove offW offH n j = acc2v at hgp ⊢
      obtain ⟨hm1, hm2, hm3⟩ := hmain acc2v hgp.1 hgp.2.1 hgp.2.2
      exact ⟨hf1, hf2, hf3, hm1, fun _ => hm2, hm3⟩
    | true =>
      simp only [if_true]
      obtain ⟨hm1, hm2, hm3⟩ := hmain _ ip (icur rfl) (fun pos => rfl)
      exact ⟨hf1, hf2, hf3, hm1, fun _ => hm2, hm3⟩

theorem diffLastRow_semantics (img : ImageRef) (offW offH th : Nat)
    (fr0 : PodMatrix Cell) (st : VTState)
    (hj : img.height / 2 < th)
    (hW : offW + img.width ≤ 65535) (hH : offH + img.height / 2 ≤ 65534)
    (hrowzero : ∀ pos : Nat × Nat, pos.2 = offH + img.height / 2 → st.screen pos = zeroCell)
    (isz : fr0.size = (img.width, th)) (ilen : fr0.cells.length = img.width * th)
    (izero : ∀ i', i' < img.width → fr0.getCell i' (img.height / 2) = zeroCell)
    (hp : st.p = .ground) :
    (vtRun st (diffLastRow fr0 img offW offH).2).p = .ground
    ∧ ∀ pos : Nat × Nat, (vtRun st (diffLastRow fr0 img offW offH).2).screen pos
        = if pos.2 = offH + img.height / 2 ∧ offW ≤ pos.1 ∧ pos.1 < offW + img.width
          then Cell.mk (img.getPixelQ (pos.1 - offW) (img.height / 2 * 2)) zeroRgb
          else st.screen pos := by
  have hs : ∀ n, n ≤ img.width →
      ((List.range n).foldl (diffLastRowStep img offW offH (img.height / 2))
        (fr0, false, ([] : List Nat))).1.size = (img.width, th)
      ∧ ((List.range n).foldl (diffLastRowStep img offW offH (img.height / 2))
          (fr0, false, ([] : List Nat))).1.cells.length = img.width * th
      ∧ (∀ i', i' < img.width → n ≤ i' →
          ((List.range n).foldl (diffLastRowStep img offW offH (img.height / 2))
            (fr0, false, ([] : List Nat))).1.getCell i' (img.height / 2) = zeroCell)
      ∧ (vtRun st ((List.range n).foldl (diffLastRowStep img offW offH (img.height / 2))
          (fr0, false, ([] : List Nat))).2.2).p = .ground
      ∧ (((List.range n).foldl (diffLastRowStep img offW offH (img.height / 2))
            (fr0, false, ([] : List Nat))).2.1 = true →
          (vtRun st ((List.range n).foldl (diffLastRowStep img offW offH (img.height / 2))
            (fr0, false, ([] : List Nat))).2.2).cursor = (offW + n, offH + img.height / 2))
      ∧ ∀ pos : Nat × Nat,
          (vtRun st ((List.range n).foldl (diffLastRowStep img offW offH (img.height / 2))
            (fr0, false, ([] : List Nat))).2.2).screen pos
          = if pos.2 = offH + img.height / 2 ∧ offW ≤ pos.1 ∧ pos.1 < offW + n
            then Cell.mk (img.getPixelQ (pos.1 - offW) (img.height / 2 * 2)) zeroRgb
            else st.screen pos := by
    intro n
    induction n with
    | zero =>
      intro _
      refine ⟨isz, ilen, fun i' hi' _ => izero i' hi', hp, ?_, ?_⟩
      · intro h
        exact Bool.noConfusion h
      · intro pos
        rw [if_neg (by omega)]
        rfl
    | succ k ih =>
      intro hn
      obtain ⟨i1, i2, i3, i4, i5, i6⟩ := ih (by omega)
      rw [List.range_succ, List.foldl_append]
      simp only [List.foldl]
      exact diffLastRowStep_semantics img offW offH (img.height / 2) img.width th k hj
        (by omega) hW hH
        ((List.range k).foldl (diffLastRowStep img offW offH (img.height / 2))
          (fr0, false, ([] : List Nat))).1
        ((List.range k).foldl (diffLastRowStep img offW offH (img.height / 2))
          (fr0, false, ([] : List Nat))).2.1
        ((List.range k).foldl (diffLastRowStep img offW offH (img.height / 2))
          (fr0, false, ([] : List Nat))).2.2
        st hrowzero i1 i2 i3 i4 i5 i6
  obtain ⟨_, _, _, h4, _, h6⟩ := hs img.width le_rfl
  exact ⟨h4, h6⟩

theorem renderCore_diff_eq (frame : PodMatrix Cell) (img : ImageRef) (offW offH : Nat)
    (hsize : frame.size = termSizeOf img) :
    renderCore frame img false (offW, offH)
      = (if img.height % 2 ≠ 0 then
          ((diffLastRow ((List.range (img.height / 2)).foldl (fun st j =>
              let r := diffRow st.1 img offW offH j
              (r.1, st.2 ++ r.2)) (frame, ([] : List Nat))).1 img offW offH).1,
            ((List.range (img.height / 2)).foldl (fun st j =>
              let r := diffRow st.1 img offW offH j
              (r.1, st.2 ++ r.2)) (frame, ([] : List Nat))).2
            ++ (diffLastRow ((List.range (img.height / 2)).foldl (fun st j =>
              let r := diffRow st.1 img offW offH j
              (r.1, st.2 ++ r.2)) (frame, ([] : List Nat))).1 img offW offH).2)
        else (List.range (img.height / 2)).foldl (fun st j =>
          let r := diffRow st.1 img offW offH j
          (r.1, st.2 ++ r.2)) (frame, ([] : List Nat))) := by
  have hc : (termSizeOf img ≠ frame.size) = False := by simp [hsize]
  unfold renderCore
  simp only [hc, decide_False, Bool.or_false, Bool.false_or, if_false, ite_false,
    Bool.false_eq_true]

theorem diffPath_screen (img : ImageRef) (offW offH : Nat)
    (hW : offW + img.width ≤ 65535) (hH : offH + (img.height + 1) / 2 ≤ 65535) :
    (vtRun initVT (renderCore (freshFrame img.width ((img.height + 1) / 2)) img false
        (offW, offH)).2).p = .ground
    ∧ ∀ pos : Nat × Nat,
        (vtRun initVT (renderCore (freshFrame img.width ((img.height + 1) / 2)) img false
            (offW, offH)).2).screen pos
          = if offW ≤ pos.1 ∧ pos.1 < offW + img.width
              ∧ offH ≤ pos.2 ∧ pos.2 < offH + (img.height + 1) / 2
            then expectedCell img (pos.1 - offW) (pos.2 - offH) else zeroCell := by
  have heq := renderCore_diff_eq (freshFrame img.width ((img.height + 1) / 2)) img offW offH rfl
  obtain ⟨r1, r2, r3, r4, r5⟩ := diffRows_semantics img offW offH ((img.height + 1) / 2)
    (freshFrame img.width ((img.height + 1) / 2)) (by omega) hW hH rfl
    (by simp [freshFrame])
    (fun i' j' _ _ => freshFrame_getCell _ _ i' j')
    (img.height / 2) le_rfl
  by_cases hodd : img.height % 2 ≠ 0
  · have hbytes : (renderCore (freshFrame img.width ((img.height + 1) / 2)) img false
        (offW, offH)).2
      = ((List.range (img.height / 2)).foldl (fun st j =>
          let r := diffRow st.1 img offW offH j
          (r.1, st.2 ++ r.2)) (freshFrame img.width ((img.height + 1) / 2), ([] : List Nat))).2
        ++ (diffLastRow ((List.range (img.height / 2)).foldl (fun st j =>
          let r := diffRow st.1 img offW offH j
          (r.1, st.2 ++ r.2)) (freshFrame img.width ((img.height + 1) / 2),
            ([] : List Nat))).1 img offW offH).2 := by
      rw [heq, if_pos hodd]
    obtain ⟨l1, l2⟩ := diffLastRow_semantics img offW offH ((img.height + 1) / 2)
      ((List.range (img.height / 2)).foldl (fun st j =>
        let r := diffRow st.1 img offW offH j
        (r.1, st.2 ++ r.2)) (freshFrame img.width ((img.height + 1) / 2), ([] : List Nat))).1
      (vtRun initVT ((List.range (img.height / 2)).foldl (fun st j =>
        let r := diffRow st.1 img offW offH j
        (r.1, st.2 ++ r.2)) (freshFrame img.width ((img.height + 1) / 2),
          ([] : List Nat))).2)
      (by omega) hW (by omega)
      (by
        intro pos hp2
        rw [r5 pos, if_neg (by omega)])
      r1 r2
      (fun i' hi' => r3 i' (img.height / 2) hi' (by omega) le_rfl)
      r4
    rw [hbytes]
    constructor
    · rw [vtRun_append]
      exact l1
    · intro pos
      rw [vtRun_append, l2 pos]
      by_cases hrow : pos.2 = offH + img.height / 2 ∧ offW ≤ pos.1 ∧ pos.1 < offW + img.width
      · rw [if_pos hrow, if_pos (show offW ≤ pos.1 ∧ pos.1 < offW + img.width
            ∧ offH ≤ pos.2 ∧ pos.2 < offH + (img.height + 1) / 2 by omega)]
        have h2 : pos.2 - offH = img.height / 2 := by omega
        rw [h2]
        unfold expectedCell
        rw [if_neg (show ¬(2 * (img.height / 2) + 1 < img.height) by omega)]
        have hm : img.height / 2 * 2 = 2 * (img.height / 2) := Nat.mul_comm _ _
        rw [hm]
      · rw [if_neg hrow, r5 pos]
        by_cases hold : offH ≤ pos.2 ∧ pos.2 < offH + img.height / 2
            ∧ offW ≤ pos.1 ∧ pos.1 < offW + img.width
        · rw [if_pos hold, if_pos (show offW ≤ pos.1 ∧ pos.1 < offW + img.width
              ∧ offH ≤ pos.2 ∧ pos.2 < offH + (img.height + 1) / 2 by omega)]
          unfold expectedCell
          rw [if_pos (show 2 * (pos.2 - offH) + 1 < img.height by omega)]
          have hm : (pos.2 - offH) * 2 = 2 * (pos.2 - offH) := Nat.mul_comm _ _
          rw [hm]
        · rw [if_neg hold, if_neg (show ¬(offW ≤ pos.1 ∧ pos.1 < offW + img.width
              ∧ offH ≤ pos.2 ∧ pos.2 < offH + (img.height + 1) / 2) by omega)]
  · have hbytes : (renderCore (freshFrame img.width ((img.height + 1) / 2)) img false
        (offW, offH)).2
      = ((List.range (img.height / 2)).foldl (fun st j =>
          let r := diffRow st.1 img offW offH j
          (r.1, st.2 ++ r.2)) (freshFrame img.width ((img.height + 1) / 2),
            ([] : List Nat))).2 := by
      rw [heq, if_neg hodd]
    rw [hbytes]
    refine ⟨r4, ?_⟩
    intro pos
    rw [r5 pos]
    by_cases hold : offH ≤ pos.2 ∧ pos.2 < offH + img.height / 2
        ∧ offW ≤ pos.1 ∧ pos.1 < offW + img.width
    · rw [if_pos hold, if_pos (show offW ≤ pos.1 ∧ pos.1 < offW + img.width
          ∧ offH ≤ pos.2 ∧ pos.2 < offH + (img.height + 1) / 2 by omega)]
      unfold expectedCell
      rw [if_pos (show 2 * (pos.2 - offH) + 1 < img.height by omega)]
      have hm : (pos.2 - offH) * 2 = 2 * (pos.2 - offH) := Nat.mul_comm _ _
      rw [hm]
    · rw [if_neg hold, if_neg (show ¬(offW ≤ pos.1 ∧ pos.1 < offW + img.width
          ∧ offH ≤ pos.2 ∧ pos.2 < offH + (img.height + 1) / 2) by omega)]

theorem overwritePath_screen (f0 : PodMatrix Cell) (img : ImageRef) (offW offH : Nat)
    (hinv : f0.cells.length = f0.size.1 * f0.size.2)
    (hW : offW + img.width ≤ 65535) (hH : offH + (img.height + 1) / 2 ≤ 65535) :
    (vtRun initVT (renderCore f0 img true (offW, offH)).2).p = .ground
    ∧ ∀ pos : Nat × Nat, (vtRun initVT (renderCore f0 img true (offW, offH)).2).screen pos
        = if offW ≤ pos.1 ∧ pos.1 < offW + img.width
            ∧ offH ≤ pos.2 ∧ pos.2 < offH + (img.height + 1) / 2
          then expectedCell img (pos.1 - offW) (pos.2 - offH) else zeroCell := by
  obtain ⟨hsz1, hlen1⟩ := resizedFrame_props f0 img hinv
  obtain ⟨hsz3, hcell3⟩ := overwriteFrame_cells
    (if termSizeOf img ≠ f0.size then f0.resize (termSizeOf img) else f0) img hsz1 hlen1
  simp only [renderCore_true_eq]
  exact overwriteBytes_screen _ img offW offH hcell3 hW hH

theorem renderBytes_eq (frame : PodMatrix Cell) (img : ImageRef) (ow : Bool) (off : Nat × Nat)
    (hw : img.width ≤ 65535) (hh : (img.height + 1) / 2 ≤ 65535) :
    renderBytes frame img ow off = (renderCore frame img ow off).2 ++ resetBytes := by
  unfold renderBytes render u16TryFrom
  rw [if_pos hw, if_pos hh]
  rfl

/-- Claim C4: for every image, every stored frame satisfying the `PodMatrix`
length invariant, and every offset that keeps the drawn region inside the
terminal's 1-based `u16` coordinate space, rendering with `overwrite = true`
and rendering with `overwrite = false` from a freshly-cleared frame of the
image's cell-grid size produce byte streams whose final terminal states,
replayed through the VT emulator from a cleared terminal, show the same cell
(quantized top/bottom colors) at every position. -/
theorem render_overwrite_diff_equiv (f0 : PodMatrix Cell) (img : ImageRef)
    (offW offH : Nat) (pos : Nat × Nat)
    (hinv : f0.cells.length = f0.size.1 * f0.size.2)
    (hW : offW + img.width ≤ 65535) (hH : offH + (img.height + 1) / 2 ≤ 65535) :
    (vtRun initVT (renderBytes f0 img true (offW, offH))).screen pos
      = (vtRun initVT (renderBytes (freshFrame img.width ((img.height + 1) / 2)) img false
          (offW, offH))).screen pos := by
  obtain ⟨op, oscr⟩ := overwritePath_screen f0 img offW offH hinv hW hH
  obtain ⟨dp, dscr⟩ := diffPath_screen img offW offH hW hH
  rw [renderBytes_eq _ _ _ _ (by omega) (by omega),
    renderBytes_eq _ _ _ _ (by omega) (by omega)]
  rw [vtRun_append, vtRun_append]
  rw [(vtRun_reset _ op).2 pos, (vtRun_reset _ dp).2 pos]
  rw [oscr pos, dscr pos]

/-- Witness for C4: a 1×2 image drawn at the origin over a 1×1 stored frame
with a nonzero cell; the overwrite and fresh-frame diff renders agree at the
drawn cell. -/
theorem render_overwrite_diff_equiv_witness :
    (vtRun initVT (renderBytes ⟨(1, 1), [⟨⟨8, 0, 0⟩, ⟨16, 0, 0⟩⟩]⟩
        ⟨1, 2, [⟨255, 0, 0⟩, ⟨0, 128, 0⟩]⟩ true (0, 0))).screen (0, 0)
      = (vtRun initVT (renderBytes (freshFrame 1 1)
          ⟨1, 2, [⟨255, 0, 0⟩, ⟨0, 128, 0⟩]⟩ false (0, 0))).screen (0, 0) :=
  render_overwrite_diff_equiv ⟨(1, 1), [⟨⟨8, 0, 0⟩, ⟨16, 0, 0⟩⟩]⟩
    ⟨1, 2, [⟨255, 0, 0⟩, ⟨0, 128, 0⟩]⟩ 0 0 (0, 0) (by decide) (by decide) (by decide)

set_option maxRecDepth 10000 in
/-- Counterexample to C4 as stated for every offset: at `offset = (65534, 0)`
with a 2×1 image whose first pixel quantizes to black, the diff path's
cursor-goto for column 1 saturates (`saturating_add(1)` at 65535) to the same
terminal column as column 0, while the overwrite path's cursor advances past
it, so the replayed terminal states differ at column 65535. -/
theorem render_overwrite_diff_counterexample :
    ¬ ((vtRun initVT (renderBytes (freshFrame 2 1) ⟨2, 1, [⟨0, 0, 0⟩, ⟨255, 255, 255⟩]⟩
          true (65534, 0))).screen (65535, 0)
      = (vtRun initVT (renderBytes (freshFrame 2 1) ⟨2, 1, [⟨0, 0, 0⟩, ⟨255, 255, 255⟩]⟩
          false (65534, 0))).screen (65535, 0)) := by decide
